import Mathlib

/-! A verification model of the fixed-depth Merkle tree implemented in
`algorithms/src/merkle_tree/merkle_tree.rs`: construction (`new`),
incremental reconstruction (`rebuild`), and authentication-path generation
(`generate_proof`), together with theorems about their behaviour.

The hash capability is an explicit parameter (`Params`); the free digest
algebra (`Digest`, `freeParams`) is an ideal collision-free instantiation
used to evaluate the model on concrete inputs.  Recursions are driven by
explicit fuel so that every definition evaluates by kernel reduction. -/

set_option maxRecDepth 10000

namespace MerkleModel

/-- Errors surfaced by the Merkle tree operations (`MerkleError` in the source). -/
inductive MerkleError where
  | invalidTreeDepth (found expected : Nat)
  | incorrectLeafIndex (index : Nat)
  | invalidPathLength (found expected : Nat)
  | incorrectPathLength (found : Nat)
deriving DecidableEq, Repr

/-- Outcome of running an operation: a typed `MerkleError`, or an abnormal stop
(out-of-bounds indexing or a failed `unwrap` in the source). -/
inductive RunError where
  | merkle (e : MerkleError)
  | panicked
deriving DecidableEq, Repr

/-- The hash capability (`MerkleParameters`/`CRH` in the source): a leaf hash,
an inner-node hash of two child digests, and the canonical empty digest. -/
structure Params (α β : Type) where
  hashLeaf : α → β
  hashInner : β → β → β
  hashEmpty : β

/-- Free digest algebra: distinct constructors model an ideal, collision-free
hash function. -/
inductive Digest (α : Type) where
  | empty : Digest α
  | leafH (a : α) : Digest α
  | innerH (l r : Digest α) : Digest α
deriving DecidableEq, Repr

/-- The free (ideal) instantiation of the hash capability. -/
def freeParams (α : Type) : Params α (Digest α) where
  hashLeaf := Digest.leafH
  hashInner := Digest.innerH
  hashEmpty := Digest.empty

/-- The Merkle tree value (`MerkleTree` in the source; the shared read-only
`parameters` handle is passed explicitly to each operation instead). -/
structure MerkleTree (β : Type) where
  root : Option β
  tree : List β
  hashed_leaves_index : Nat
  padding_tree : List (β × β)
deriving DecidableEq, Repr

/-- An authentication path (`MerklePath` in the source, minus the parameters
handle). -/
structure MerklePath (β : Type) where
  path : List β
  leaf_index : Nat
deriving DecidableEq, Repr

/-- `MerkleTree::hashed_leaves`. -/
def hashed_leaves (self : MerkleTree β) : List β := self.tree.drop self.hashed_leaves_index

/-- Returns true iff the index represents the root (`is_root`). -/
def is_root (index : Nat) : Bool := index == 0

/-- Index of the left child (`left_child`). -/
def left_child (index : Nat) : Nat := 2 * index + 1

/-- Index of the right child (`right_child`). -/
def right_child (index : Nat) : Nat := 2 * index + 2

/-- Returns true iff the given index represents a left child (`is_left_child`). -/
def is_left_child (index : Nat) : Bool := index % 2 == 1

/-- Index of the parent (`parent`). -/
def parent (index : Nat) : Option Nat :=
  if index > 0 then some ((index - 1) / 2) else none

/-- Index of the sibling (`sibling`). -/
def sibling (index : Nat) : Option Nat :=
  if index == 0 then none
  else if is_left_child index then some (index + 1) else some (index - 1)

/-- Flat array index of logical leaf `index` in a tree of depth `td`
(`convert_index_to_last_level`). -/
def convert_index_to_last_level (index td : Nat) : Nat := index + 2 ^ td - 1

/-- Fuel-driven floor base-2 logarithm. -/
def log2Aux : Nat → Nat → Nat
  | 0, _ => 0
  | fuel + 1, n => if n ≤ 1 then 0 else log2Aux fuel (n / 2) + 1

/-- Depth of the tree, given the size of the tree (`tree_depth` in the source:
the floor base-2 logarithm of the node count). -/
def tree_depth (tree_size : Nat) : Nat := log2Aux tree_size tree_size

/-- Fuel-driven smallest power of two `≥ n`. -/
def npow2Aux : Nat → Nat → Nat
  | 0, _ => 1
  | fuel + 1, n => if n ≤ 1 then 1 else 2 * npow2Aux fuel ((n + 1) / 2)

/-- Smallest power of two that is `≥ n`, with `0 ↦ 1`
(`usize::next_power_of_two`). -/
def next_power_of_two (n : Nat) : Nat := npow2Aux n n

/-- Fuel-driven parent chain. -/
def ancestorsAux : Nat → Nat → List Nat
  | _, 0 => []
  | 0, _ + 1 => []
  | fuel + 1, i + 1 => i / 2 :: ancestorsAux fuel (i / 2)

/-- The chain of strict ancestors of flat index `i`, ending at the root
(the `Ancestors` iterator in the source). -/
def ancestors (i : Nat) : List Nat := ancestorsAux i i

/-- Fuel-driven chunking of a list into consecutive batches of `k` elements. -/
def chunksAux (k : Nat) : Nat → List γ → List (List γ)
  | _, [] => []
  | 0, _ :: _ => []
  | fuel + 1, x :: xs => (x :: xs).take k :: chunksAux k fuel ((x :: xs).drop k)

/-- Split a list into consecutive batches of `k` elements (the last batch may
be shorter). -/
def chunksOf (k : Nat) (xs : List γ) : List (List γ) := chunksAux k xs.length xs

/-- `MerkleTree::hash_row`: split the inputs into batches of 500 and hash each
batch, returning the per-batch digest lists in input order. -/
def hash_row (h : γ → β) (leaves : List γ) : List (List β) :=
  (chunksOf 500 leaves).map (fun chunk => chunk.map h)

/-- One padding step per remaining level `r`: hash the accumulator against the
empty digest; every level except the top one (`r = 1`) caches the
`(accumulator, empty)` pair. -/
def pad_go (P : Params α β) : Nat → β → β × List (β × β)
  | 0, h => (h, [])
  | r + 1, h =>
    let h2 := P.hashInner h P.hashEmpty
    let rest := pad_go P r h2
    (rest.1, if 1 ≤ r then (h2, P.hashEmpty) :: rest.2 else rest.2)

/-- The padding loop shared by `new` and `rebuild`: extend the sub-root at
depth `current_depth` up to depth `D`. -/
def pad_chain (D : Nat) (P : Params α β) (current_depth : Nat) (h : β) :
    β × List (β × β) :=
  pad_go P (D - current_depth) h

/-- The hashed leaf row of `new`: the batched leaf hashes reassembled in order
at accumulated offsets, then empty digests up to the last-level size. -/
def hashed_leaf_row (P : Params α β) (leaves : List α) (L : Nat) : List β :=
  (hash_row P.hashLeaf leaves).flatten ++ List.replicate (L - leaves.length) P.hashEmpty

/-- Digest of the node at flat index `i` in the tree built by `new`, where
`fuel` is the height of the subtree under `i`: last-level nodes read the leaf
row, inner nodes hash their two children (the bottom-up level loop of `new`). -/
def node_hash (P : Params α β) (L : Nat) (row : List β) : Nat → Nat → β
  | 0, i => row.getD (i - (L - 1)) P.hashEmpty
  | fuel + 1, i =>
    if L - 1 ≤ i then row.getD (i - (L - 1)) P.hashEmpty
    else P.hashInner (node_hash P L row fuel (left_child i))
                     (node_hash P L row fuel (right_child i))

/-- The node array assembled by `new`: the hash of node `i` sits at flat
index `i`, computed bottom-up from the hashed leaf row. -/
def newTree (P : Params α β) (leaves : List α) : List β :=
  let last_level_size := next_power_of_two leaves.length
  let tree_size := 2 * last_level_size - 1
  let td := tree_depth tree_size
  let row := hashed_leaf_row P leaves last_level_size
  (List.range tree_size).map
    (fun i => node_hash P last_level_size row (td - tree_depth (i + 1)) i)

/-- `MerkleTree::new`. -/
def new (D : Nat) (P : Params α β) (leaves : List α) :
    Except RunError (MerkleTree β) :=
  let last_level_size := next_power_of_two leaves.length
  let tree_size := 2 * last_level_size - 1
  let td := tree_depth tree_size
  if td > D then .error (.merkle (.invalidTreeDepth td D))
  else
    let tree := newTree P leaves
    let pad := pad_chain D P td (tree.headD P.hashEmpty)
    .ok { root := some pad.1, tree := tree,
          hashed_leaves_index := last_level_size - 1, padding_tree := pad.2 }

/-- The dirty test of `rebuild`: a node is rehashed iff its flat index is among
the raw new-leaf indices, either child digest differs between the old and the
newly assembled tree at that flat position, or the node occurs in the ancestor
chain of a raw new-leaf index. -/
def rebuild_dirty [DecidableEq β] (old : List β) (new_indices : List Nat)
    (i : Nat) (lv rv : Option β) : Bool :=
  new_indices.contains i || old[left_child i]? != lv ||
    old[right_child i]? != rv ||
    new_indices.any (fun idx => (ancestors idx).contains i)

/-- Digest of the node at flat index `i` in the tree assembled by `rebuild`
(`fuel` is the height of the subtree under `i`): dirty nodes are rehashed from
their two children in the new tree, clean nodes are copied from the old tree. -/
def rebuild_node [DecidableEq β] (P : Params α β) (old : List β)
    (new_indices : List Nat) (L : Nat) (row : List β) : Nat → Nat → β
  | 0, i => row.getD (i - (L - 1)) P.hashEmpty
  | fuel + 1, i =>
    if L - 1 ≤ i then row.getD (i - (L - 1)) P.hashEmpty
    else
      let lv := rebuild_node P old new_indices L row fuel (left_child i)
      let rv := rebuild_node P old new_indices L row fuel (right_child i)
      if rebuild_dirty old new_indices i (some lv) (some rv)
      then P.hashInner lv rv
      else old.getD i P.hashEmpty

/-- Write the digest batches produced by `hash_row` into the leaf row: the
batch with batch number `j` is written at offset `start_index + j` (this is
what the enumerate-based loop of `rebuild` does). -/
def write_chunks (row : List β) (pos : Nat) : List (List β) → List β
  | [] => row
  | c :: cs => write_chunks (row.take pos ++ c ++ row.drop (pos + c.length)) (pos + 1) cs

/-- The leaf row assembled by `rebuild`: already-hashed old leaf digests copied
for positions `[0, start_index)`, empty digests elsewhere, then the hash
batches of the new leaves written by `write_chunks`. -/
def rebuild_leaf_row (P : Params α β) (old_hashed : List β) (start_index : Nat)
    (new_leaves : List α) (L : Nat) : List β :=
  write_chunks
    (old_hashed.take start_index ++ List.replicate (L - start_index) P.hashEmpty)
    start_index (hash_row P.hashLeaf new_leaves)

/-- The node array assembled by `rebuild`. -/
def rebuildTree [DecidableEq β] (P : Params α β) (self : MerkleTree β)
    (start_index : Nat) (new_leaves : List α) : List β :=
  let last_level_size := next_power_of_two (start_index + new_leaves.length)
  let tree_size := 2 * last_level_size - 1
  let td := tree_depth tree_size
  let new_indices := (List.range new_leaves.length).map (start_index + ·)
  let row := rebuild_leaf_row P (hashed_leaves self) start_index new_leaves
    last_level_size
  (List.range tree_size).map
    (fun i => rebuild_node P self.tree new_indices last_level_size row
      (td - tree_depth (i + 1)) i)

/-- `MerkleTree::rebuild`. -/
def rebuild [DecidableEq β] (D : Nat) (P : Params α β) (self : MerkleTree β)
    (start_index : Nat) (new_leaves : List α) : Except RunError (MerkleTree β) :=
  let last_level_size := next_power_of_two (start_index + new_leaves.length)
  let tree_size := 2 * last_level_size - 1
  let td := tree_depth tree_size
  if td > D then .error (.merkle (.invalidTreeDepth td D))
  else
    let hashed := hashed_leaves self
    if start_index > hashed.length ∨ start_index > last_level_size then
      .error .panicked
    else
      let tree := rebuildTree P self start_index new_leaves
      if self.tree.isEmpty then .error .panicked
      else
        let current_hash := tree.headD P.hashEmpty
        if current_hash = self.tree.headD P.hashEmpty then
          match self.padding_tree.getLast? with
          | none => .error .panicked
          | some pr =>
            .ok { root := some (P.hashInner pr.1 P.hashEmpty), tree := tree,
                  hashed_leaves_index := last_level_size - 1,
                  padding_tree := self.padding_tree }
        else
          let pad := pad_chain D P td current_hash
          .ok { root := some pad.1, tree := tree,
                hashed_leaves_index := last_level_size - 1, padding_tree := pad.2 }

/-- Fuel-driven sibling walk. -/
def path_upAux (tree : List β) : Nat → Nat → Option (List β)
  | _, 0 => some []
  | 0, _ + 1 => none
  | fuel + 1, i + 1 =>
    let s := if (i + 1) % 2 == 1 then i + 2 else i
    tree[s]?.bind fun dg => (path_upAux tree fuel (i / 2)).map (dg :: ·)

/-- The sibling walk of `generate_proof`: from flat index `i` up to the root,
collecting each visited sibling digest (`none` where the source would index
out of bounds). -/
def path_up (tree : List β) (i : Nat) : Option (List β) := path_upAux tree i i

/-- `MerkleTree::generate_proof`. -/
def generate_proof [DecidableEq β] (D : Nat) (P : Params α β)
    (self : MerkleTree β) (index : Nat) (leaf : α) :
    Except RunError (MerklePath β) :=
  let leaf_hash := P.hashLeaf leaf
  let td := tree_depth self.tree.length
  let tree_index := convert_index_to_last_level index td
  match self.tree[tree_index]? with
  | none => .error .panicked
  | some stored =>
    if leaf_hash ≠ stored then .error (.merkle (.incorrectLeafIndex tree_index))
    else
      match path_up self.tree tree_index with
      | none => .error .panicked
      | some path0 =>
        if path0.length > D then
          .error (.merkle (.invalidPathLength path0.length D))
        else
          let path1 := if path0.length ≠ D
            then path0 ++ [P.hashEmpty] ++ self.padding_tree.map (fun pr => pr.2)
            else path0
          if path1.length ≠ D then
            .error (.merkle (.incorrectPathLength path1.length))
          else .ok { path := path1, leaf_index := index }

/-- Extract the success value of a run, with a default. -/
def okD (r : Except RunError γ) (d : γ) : γ :=
  match r with
  | .ok t => t
  | .error _ => d

/-- True iff the run ended in an abnormal stop rather than in a success or a
typed `MerkleError`. -/
def isPanicked : Except RunError γ → Bool
  | .error .panicked => true
  | _ => false

/-! ### Basic facts about the fuel-driven arithmetic helpers -/

theorem log2Aux_eq_log : ∀ fuel n, n ≤ fuel → log2Aux fuel n = Nat.log 2 n := by
  intro fuel
  induction fuel with
  | zero =>
    intro n hn
    interval_cases n
    simp [log2Aux]
  | succ fuel ih =>
    intro n hn
    by_cases h1 : n ≤ 1
    · interval_cases n <;> simp [log2Aux]
    · have h2 : 2 ≤ n := by omega
      have hdiv : n / 2 ≤ fuel := by
        have := Nat.div_lt_self (by omega : 0 < n) (by omega : 1 < 2)
        omega
      have : log2Aux (fuel + 1) n = log2Aux fuel (n / 2) + 1 := by
        simp [log2Aux, h1]
      rw [this, ih _ hdiv, Nat.log_of_one_lt_of_le (by omega) h2]

/-- `tree_depth` is the floor base-2 logarithm. -/
theorem tree_depth_eq_log (n : Nat) : tree_depth n = Nat.log 2 n :=
  log2Aux_eq_log n n le_rfl

theorem npow2Aux_eq : ∀ fuel n, n ≤ fuel → npow2Aux fuel n = 2 ^ Nat.clog 2 n := by
  intro fuel
  induction fuel with
  | zero =>
    intro n hn
    interval_cases n
    simp [npow2Aux, Nat.clog_of_right_le_one]
  | succ fuel ih =>
    intro n hn
    by_cases h1 : n ≤ 1
    · have : Nat.clog 2 n = 0 := Nat.clog_of_right_le_one h1 2
      interval_cases n <;> simp [npow2Aux, *]
    · have h2 : 2 ≤ n := by omega
      have hdiv : (n + 1) / 2 ≤ fuel := by omega
      have hrec : Nat.clog 2 n = Nat.clog 2 ((n + 1) / 2) + 1 := by
        have := Nat.clog_of_two_le (b := 2) (n := n) (by omega) h2
        simpa using this
      have : npow2Aux (fuel + 1) n = 2 * npow2Aux fuel ((n + 1) / 2) := by
        simp [npow2Aux, h1]
      rw [this, ih _ hdiv, hrec, pow_succ]
      ring

/-- `next_power_of_two` is `2 ^ clog 2`. -/
theorem next_power_of_two_eq (n : Nat) : next_power_of_two n = 2 ^ Nat.clog 2 n :=
  npow2Aux_eq n n le_rfl

theorem le_next_power_of_two (n : Nat) : n ≤ next_power_of_two n := by
  rw [next_power_of_two_eq]
  exact Nat.le_pow_clog (by omega) n

theorem next_power_of_two_pos (n : Nat) : 0 < next_power_of_two n := by
  rw [next_power_of_two_eq]
  exact Nat.pos_pow_of_pos _ (by omega)

theorem next_power_of_two_mono {m n : Nat} (h : m ≤ n) :
    next_power_of_two m ≤ next_power_of_two n := by
  rw [next_power_of_two_eq, next_power_of_two_eq]
  exact Nat.pow_le_pow_right (by omega) (Nat.clog_mono_right 2 h)

/-- The depth computed from a tree of `2 * 2^k - 1` nodes is `k`. -/
theorem tree_depth_size (k : Nat) : tree_depth (2 * 2 ^ k - 1) = k := by
  rw [tree_depth_eq_log]
  have h1 : 2 ^ k ≤ 2 * 2 ^ k - 1 := by
    have : 1 ≤ 2 ^ k := Nat.one_le_two_pow
    omega
  have h2 : 2 * 2 ^ k - 1 < 2 ^ (k + 1) := by
    have : 1 ≤ 2 ^ k := Nat.one_le_two_pow
    rw [pow_succ]
    omega
  exact Nat.log_eq_of_pow_le_of_lt_pow h1 h2

/-- The level of the left child is one below the level of its parent
(levels measured as `tree_depth (i + 1)`). -/
theorem tree_depth_left_child (i : Nat) :
    tree_depth (left_child i + 1) = tree_depth (i + 1) + 1 := by
  have : left_child i + 1 = (i + 1) * 2 := by unfold left_child; ring
  rw [this, tree_depth_eq_log, tree_depth_eq_log]
  exact Nat.log_mul_base (by omega) (by omega)

theorem tree_depth_right_child (i : Nat) :
    tree_depth (right_child i + 1) = tree_depth (i + 1) + 1 := by
  have hrw : right_child i + 1 = 2 * (i + 1) + 1 := by unfold right_child; ring
  rw [hrw, tree_depth_eq_log, tree_depth_eq_log]
  have h1 : 2 ^ (Nat.log 2 (i + 1) + 1) ≤ 2 * (i + 1) + 1 := by
    have := Nat.pow_log_le_self 2 (x := i + 1) (by omega)
    rw [pow_succ]
    omega
  have h2 : 2 * (i + 1) + 1 < 2 ^ (Nat.log 2 (i + 1) + 1 + 1) := by
    have := Nat.lt_pow_succ_log_self (b := 2) (by omega) (i + 1)
    rw [pow_succ]
    omega
  exact Nat.log_eq_of_pow_le_of_lt_pow h1 h2

/-- A node index is strictly inside the tree iff its level is below `d`. -/
theorem tree_depth_lt_iff (i d : Nat) :
    tree_depth (i + 1) < d ↔ i + 1 < 2 ^ d := by
  rw [tree_depth_eq_log]
  exact (Nat.lt_pow_iff_log_lt (by omega) (by omega)).symm

theorem tree_depth_le_of_lt_size {i d : Nat} (h : i < 2 * 2 ^ d - 1) :
    tree_depth (i + 1) ≤ d := by
  have h2 : i + 1 < 2 ^ (d + 1) := by
    have : 1 ≤ 2 ^ d := Nat.one_le_two_pow
    rw [pow_succ]
    omega
  have := (tree_depth_lt_iff i (d + 1)).2 h2
  omega

/-- The depth of the tree built from `n` leaves. -/
def tdOf (n : Nat) : Nat := tree_depth (2 * next_power_of_two n - 1)

theorem tdOf_eq_clog (n : Nat) : tdOf n = Nat.clog 2 n := by
  rw [tdOf, next_power_of_two_eq, tree_depth_size]

theorem next_power_of_two_eq_pow_tdOf (n : Nat) :
    next_power_of_two n = 2 ^ tdOf n := by
  rw [tdOf_eq_clog, next_power_of_two_eq]

/-! ### The ancestor chain -/

theorem ancestorsAux_congr : ∀ f g i, i ≤ f → i ≤ g →
    ancestorsAux f i = ancestorsAux g i := by
  intro f
  induction f with
  | zero =>
    intro g i hf _
    interval_cases i
    cases g <;> rfl
  | succ f ih =>
    intro g i hf hg
    cases i with
    | zero => cases g <;> rfl
    | succ j =>
      cases g with
      | zero => omega
      | succ g =>
        show j / 2 :: ancestorsAux f (j / 2) = j / 2 :: ancestorsAux g (j / 2)
        have hd := Nat.div_le_self j 2
        rw [ih g (j / 2) (by omega) (by omega)]

theorem ancestors_zero : ancestors 0 = [] := rfl

theorem ancestors_succ (i : Nat) :
    ancestors (i + 1) = i / 2 :: ancestors (i / 2) := by
  show i / 2 :: ancestorsAux i (i / 2) = i / 2 :: ancestorsAux (i / 2) (i / 2)
  have hd := Nat.div_le_self i 2
  rw [ancestorsAux_congr i (i / 2) (i / 2) (by omega) le_rfl]

theorem mem_ancestors_lt : ∀ i j, j ∈ ancestors i → j < i := by
  intro i
  induction i using Nat.strong_induction_on with
  | _ i ih =>
    intro j hj
    cases i with
    | zero => simp [ancestors_zero] at hj
    | succ k =>
      rw [ancestors_succ] at hj
      rcases List.mem_cons.1 hj with h | h
      · subst h; omega
      · have := ih (k / 2) (by omega) j h
        omega

theorem ancestors_trans : ∀ m c j, c ∈ ancestors m → j ∈ ancestors c →
    j ∈ ancestors m := by
  intro m
  induction m using Nat.strong_induction_on with
  | _ m ih =>
    intro c j hc hj
    cases m with
    | zero => simp [ancestors_zero] at hc
    | succ k =>
      rw [ancestors_succ] at hc ⊢
      rcases List.mem_cons.1 hc with h | h
      · subst h; exact List.mem_cons_of_mem _ hj
      · exact List.mem_cons_of_mem _ (ih (k / 2) (by omega) c j h hj)

theorem mem_ancestors_left_child (i : Nat) : i ∈ ancestors (left_child i) := by
  show i ∈ ancestors (2 * i + 1)
  rw [ancestors_succ, show 2 * i / 2 = i by omega]
  exact List.mem_cons_self _ _

theorem mem_ancestors_right_child (i : Nat) : i ∈ ancestors (right_child i) := by
  show i ∈ ancestors (2 * i + 1 + 1)
  rw [ancestors_succ, show (2 * i + 1) / 2 = i by omega]
  exact List.mem_cons_self _ _

/-! ### Chunking and batched hashing -/

theorem chunksAux_congr (k : Nat) (hk : 1 ≤ k) : ∀ f g (xs : List γ),
    xs.length ≤ f → xs.length ≤ g → chunksAux k f xs = chunksAux k g xs := by
  intro f
  induction f with
  | zero =>
    intro g xs hf _
    cases xs with
    | nil => cases g <;> rfl
    | cons x l => simp at hf
  | succ f ih =>
    intro g xs hf hg
    cases xs with
    | nil => cases g <;> rfl
    | cons x l =>
      cases g with
      | zero => simp at hg
      | succ g =>
        show (x :: l).take k :: chunksAux k f ((x :: l).drop k) =
          (x :: l).take k :: chunksAux k g ((x :: l).drop k)
        have hled : ((x :: l).drop k).length = l.length + 1 - k := by
          simp
        have h1 : ((x :: l).drop k).length ≤ f := by
          simp at hf
          omega
        have h2 : ((x :: l).drop k).length ≤ g := by
          simp at hg
          omega
        rw [ih g _ h1 h2]

theorem chunksOf_cons (k : Nat) (hk : 1 ≤ k) (x : γ) (l : List γ) :
    chunksOf k (x :: l) =
      (x :: l).take k :: chunksOf k ((x :: l).drop k) := by
  show (x :: l).take k :: chunksAux k l.length ((x :: l).drop k) =
    (x :: l).take k :: chunksAux k ((x :: l).drop k).length ((x :: l).drop k)
  have : ((x :: l).drop k).length = l.length + 1 - k := by simp
  rw [chunksAux_congr k hk l.length _ _ (by omega) le_rfl]

theorem chunksOf_flatten_aux (k : Nat) (hk : 1 ≤ k) :
    ∀ n (xs : List γ), xs.length ≤ n → (chunksOf k xs).flatten = xs := by
  intro n
  induction n with
  | zero =>
    intro xs h
    cases xs with
    | nil => rfl
    | cons => simp at h
  | succ n ih =>
    intro xs h
    cases xs with
    | nil => rfl
    | cons x l =>
      rw [chunksOf_cons k hk, List.flatten_cons, ih _ (by simp at h ⊢; omega)]
      exact List.take_append_drop k (x :: l)

/-- Batches reassembled in input order restore the input. -/
theorem chunksOf_flatten (k : Nat) (hk : 1 ≤ k) (xs : List γ) :
    (chunksOf k xs).flatten = xs :=
  chunksOf_flatten_aux k hk xs.length xs le_rfl

/-- A nonempty input that fits in one batch yields exactly one chunk. -/
theorem chunksOf_small (k : Nat) (x : γ) (l : List γ)
    (h : (x :: l).length ≤ k) : chunksOf k (x :: l) = [x :: l] := by
  rw [chunksOf_cons k (by simp at h; omega), List.take_of_length_le h,
    List.drop_eq_nil_of_le h]
  rfl

/-- Reassembling the hash batches in input order hashes every input once,
in order. -/
theorem hash_row_flatten (h : γ → β) (xs : List γ) :
    (hash_row h xs).flatten = xs.map h := by
  unfold hash_row
  have h1 : ((chunksOf 500 xs).map (List.map h)).flatten =
      (chunksOf 500 xs).flatten.map h := by
    simp
  rw [h1, chunksOf_flatten 500 (by omega)]

theorem hash_row_nil (h : γ → β) : hash_row h [] = [] := rfl

theorem hash_row_single (h : γ → β) (x : γ) (l : List γ)
    (hle : (x :: l).length ≤ 500) :
    hash_row h (x :: l) = [(x :: l).map h] := by
  unfold hash_row
  rw [chunksOf_small _ _ _ hle]
  rfl

/-! ### The hashed leaf row of `new` -/

theorem hashed_leaf_row_eq (P : Params α β) (leaves : List α) (L : Nat) :
    hashed_leaf_row P leaves L =
      leaves.map P.hashLeaf ++ List.replicate (L - leaves.length) P.hashEmpty := by
  unfold hashed_leaf_row
  rw [hash_row_flatten]

theorem hashed_leaf_row_length (P : Params α β) (leaves : List α) (L : Nat)
    (h : leaves.length ≤ L) : (hashed_leaf_row P leaves L).length = L := by
  rw [hashed_leaf_row_eq]
  simp
  omega

theorem hashed_leaf_row_get_lt {P : Params α β} {leaves : List α} {L i : Nat}
    (hi : i < leaves.length) :
    (hashed_leaf_row P leaves L)[i]? = leaves[i]?.map P.hashLeaf := by
  rw [hashed_leaf_row_eq, List.getElem?_append_left (by simpa using hi),
    List.getElem?_map]

theorem hashed_leaf_row_get_ge {P : Params α β} {leaves : List α} {L i : Nat}
    (h1 : leaves.length ≤ i) (h2 : i < L) :
    (hashed_leaf_row P leaves L)[i]? = some P.hashEmpty := by
  rw [hashed_leaf_row_eq, List.getElem?_append_right (by simpa using h1)]
  rw [List.getElem?_replicate]
  simp
  omega

/-! ### Node hashes -/

theorem node_hash_leaf (P : Params α β) (L : Nat) (row : List β) (fuel i : Nat)
    (h : L - 1 ≤ i) :
    node_hash P L row fuel i = row.getD (i - (L - 1)) P.hashEmpty := by
  cases fuel with
  | zero => rfl
  | succ fuel => simp [node_hash, h]

theorem node_hash_internal (P : Params α β) (L : Nat) (row : List β)
    (fuel i : Nat) (h : i < L - 1) :
    node_hash P L row (fuel + 1) i =
      P.hashInner (node_hash P L row fuel (left_child i))
        (node_hash P L row fuel (right_child i)) := by
  simp [node_hash, show ¬ (L - 1 ≤ i) by omega]

theorem newTree_length (P : Params α β) (leaves : List α) :
    (newTree P leaves).length = 2 * next_power_of_two leaves.length - 1 := by
  unfold newTree
  simp

theorem newTree_get (P : Params α β) (leaves : List α) (i : Nat)
    (hi : i < 2 * next_power_of_two leaves.length - 1) :
    (newTree P leaves)[i]? = some (node_hash P (next_power_of_two leaves.length)
      (hashed_leaf_row P leaves (next_power_of_two leaves.length))
      (tdOf leaves.length - tree_depth (i + 1)) i) := by
  unfold newTree
  rw [List.getElem?_map, List.getElem?_range hi]
  rfl

/-! ### The padding chain -/

/-- Iterated hashing of the accumulator against the empty digest. -/
def hash_chain (P : Params α β) : Nat → β → β
  | 0, h => h
  | n + 1, h => hash_chain P n (P.hashInner h P.hashEmpty)

theorem pad_go_fst (P : Params α β) : ∀ r h, (pad_go P r h).1 = hash_chain P r h := by
  intro r
  induction r with
  | zero => intro h; rfl
  | succ r ih =>
    intro h
    show (pad_go P (r + 1) h).1 = hash_chain P r (P.hashInner h P.hashEmpty)
    rw [← ih]
    simp [pad_go]

theorem pad_go_succ (P : Params α β) (r : Nat) (h : β) :
    pad_go P (r + 1) h =
      ((pad_go P r (P.hashInner h P.hashEmpty)).1,
        if 1 ≤ r then
          (P.hashInner h P.hashEmpty, P.hashEmpty) ::
            (pad_go P r (P.hashInner h P.hashEmpty)).2
        else (pad_go P r (P.hashInner h P.hashEmpty)).2) := rfl

theorem pad_go_snd_length_succ (P : Params α β) : ∀ r (h : β),
    (pad_go P (r + 1) h).2.length = r := by
  intro r
  induction r with
  | zero => intro h; rfl
  | succ r ih =>
    intro h
    rw [pad_go_succ]
    simp [ih]

theorem pad_go_snd_length (P : Params α β) (r : Nat) (h : β) :
    (pad_go P r h).2.length = r - 1 := by
  cases r with
  | zero => rfl
  | succ r => simp [pad_go_snd_length_succ]

theorem pad_go_siblings_succ (P : Params α β) : ∀ r (h : β),
    (pad_go P (r + 1) h).2.map (fun pr => pr.2) =
      List.replicate r P.hashEmpty := by
  intro r
  induction r with
  | zero => intro h; rfl
  | succ r ih =>
    intro h
    rw [pad_go_succ]
    simp [ih, List.replicate_succ]

theorem pad_go_siblings (P : Params α β) (r : Nat) (h : β) :
    (pad_go P r h).2.map (fun pr => pr.2) =
      List.replicate (r - 1) P.hashEmpty := by
  cases r with
  | zero => rfl
  | succ r => simp [pad_go_siblings_succ]

/-! ### Characterisation of `new` -/

theorem new_ok {D : Nat} {P : Params α β} {leaves : List α} {t : MerkleTree β}
    (h : new D P leaves = .ok t) :
    tdOf leaves.length ≤ D ∧
    t = { root := some (pad_chain D P (tdOf leaves.length)
            ((newTree P leaves).headD P.hashEmpty)).1,
          tree := newTree P leaves,
          hashed_leaves_index := next_power_of_two leaves.length - 1,
          padding_tree := (pad_chain D P (tdOf leaves.length)
            ((newTree P leaves).headD P.hashEmpty)).2 } := by
  simp only [new] at h
  by_cases hd : tree_depth (2 * next_power_of_two leaves.length - 1) > D
  · rw [if_pos hd] at h
    exact absurd h (by simp)
  · rw [if_neg hd] at h
    injection h with h
    exact ⟨by rw [tdOf]; omega, h.symm⟩

theorem new_ok_of_le {D : Nat} (P : Params α β) (leaves : List α)
    (hD : tdOf leaves.length ≤ D) :
    new D P leaves =
      .ok { root := some (pad_chain D P (tdOf leaves.length)
              ((newTree P leaves).headD P.hashEmpty)).1,
            tree := newTree P leaves,
            hashed_leaves_index := next_power_of_two leaves.length - 1,
            padding_tree := (pad_chain D P (tdOf leaves.length)
              ((newTree P leaves).headD P.hashEmpty)).2 } := by
  simp only [new]
  rw [tdOf] at hD
  rw [if_neg (show ¬ (tree_depth (2 * next_power_of_two leaves.length - 1) > D)
    by omega)]
  rw [tdOf]

/-! ### Concrete trees used to instantiate the theorems -/

/-- Placeholder tree used as the default when extracting a run result. -/
def dfltTree : MerkleTree (Digest Nat) :=
  { root := none, tree := [], hashed_leaves_index := 0, padding_tree := [] }

/-- The spec's concrete scenario: `DEPTH = 3`, three leaves. -/
def tABC : MerkleTree (Digest Nat) := okD (new 3 (freeParams Nat) [0, 1, 2]) dfltTree

/-- Three leaves under `DEPTH = 5`: two padding pairs. -/
def tABC5 : MerkleTree (Digest Nat) := okD (new 5 (freeParams Nat) [0, 1, 2]) dfltTree

/-! ### C7: padding correctness of `new` -/

/-- C7: for every tree built by `new`: if `actual_depth < DEPTH` then the root
is the sub-root `nodes[0]` hashed against the empty digest exactly
`DEPTH - actual_depth` times and `padding_tree` has exactly
`DEPTH - actual_depth - 1` entries; if `actual_depth = DEPTH` then
`padding_tree` is empty and the root is `nodes[0]`. -/
theorem C7_padding_correctness (D : Nat) (P : Params α β) (leaves : List α)
    (t : MerkleTree β) (h : new D P leaves = .ok t) :
    (tdOf leaves.length < D →
      t.padding_tree.length = D - tdOf leaves.length - 1 ∧
      t.root = some (hash_chain P (D - tdOf leaves.length)
        (t.tree.headD P.hashEmpty))) ∧
    (tdOf leaves.length = D →
      t.padding_tree = [] ∧ t.root = some (t.tree.headD P.hashEmpty)) := by
  obtain ⟨hD, rfl⟩ := new_ok h
  dsimp only
  constructor
  · intro _
    refine ⟨?_, ?_⟩
    · rw [pad_chain, pad_go_snd_length]
    · rw [pad_chain, pad_go_fst]
  · intro heq
    rw [pad_chain, heq, Nat.sub_self]
    exact ⟨rfl, rfl⟩

/-- C7 witness: three leaves under `DEPTH = 5` (`actual_depth = 2`). -/
theorem C7_witness :
    tABC5.padding_tree.length = 5 - tdOf (([0, 1, 2] : List Nat)).length - 1 ∧
    tABC5.root = some (hash_chain (freeParams Nat)
      (5 - tdOf (([0, 1, 2] : List Nat)).length)
      (tABC5.tree.headD (freeParams Nat).hashEmpty)) :=
  (C7_padding_correctness 5 (freeParams Nat) [0, 1, 2] tABC5 (by rfl)).1
    (by decide)

/-! ### C8: structural invariants of `new` -/

/-- C8: in every tree returned by `new`, every internal node is the inner-node
hash of its two children, and every leaf slot beyond the supplied leaves holds
the canonical empty digest. -/
theorem C8_node_invariants (D : Nat) (P : Params α β) (leaves : List α)
    (t : MerkleTree β) (i j : Nat) (h : new D P leaves = .ok t)
    (hi : left_child i < t.tree.length)
    (hj1 : leaves.length ≤ j) (hj2 : j < next_power_of_two leaves.length) :
    t.tree[i]? = some (P.hashInner (t.tree.getD (left_child i) P.hashEmpty)
      (t.tree.getD (right_child i) P.hashEmpty)) ∧
    t.tree[next_power_of_two leaves.length - 1 + j]? = some P.hashEmpty := by
  obtain ⟨hD, rfl⟩ := new_ok h
  dsimp only at hi ⊢
  have hL1 : 1 ≤ next_power_of_two leaves.length := next_power_of_two_pos _
  have hLpow : next_power_of_two leaves.length = 2 ^ tdOf leaves.length :=
    next_power_of_two_eq_pow_tdOf _
  rw [newTree_length] at hi
  constructor
  · -- the internal-node invariant
    have hiL : i < next_power_of_two leaves.length - 1 := by
      rw [left_child] at hi
      omega
    have his : i < 2 * next_power_of_two leaves.length - 1 := by omega
    have hls : left_child i < 2 * next_power_of_two leaves.length - 1 := by
      rw [left_child]
      omega
    have hrs : right_child i < 2 * next_power_of_two leaves.length - 1 := by
      rw [right_child]
      omega
    have hlvl : tree_depth (i + 1) < tdOf leaves.length := by
      rw [tree_depth_lt_iff, ← hLpow]
      omega
    obtain ⟨f, hf⟩ : ∃ f, tdOf leaves.length - tree_depth (i + 1) = f + 1 :=
      ⟨tdOf leaves.length - tree_depth (i + 1) - 1, by omega⟩
    rw [newTree_get P leaves i his, hf,
      node_hash_internal P _ _ f i hiL]
    rw [List.getD_eq_getElem?_getD, List.getD_eq_getElem?_getD,
      newTree_get P leaves _ hls, newTree_get P leaves _ hrs,
      tree_depth_left_child, tree_depth_right_child]
    have hfl : tdOf leaves.length - (tree_depth (i + 1) + 1) = f := by omega
    rw [hfl]
    rfl
  · -- leaf slots beyond the supplied leaves
    have hjs : next_power_of_two leaves.length - 1 + j <
        2 * next_power_of_two leaves.length - 1 := by omega
    rw [newTree_get P leaves _ hjs, node_hash_leaf]
    · rw [show next_power_of_two leaves.length - 1 + j -
        (next_power_of_two leaves.length - 1) = j by omega]
      rw [List.getD_eq_getElem?_getD, hashed_leaf_row_get_ge hj1 hj2]
      rfl
    · omega

/-- C8 witness: the spec's three-leaf scenario, internal node 1 and the empty
fourth leaf slot. -/
theorem C8_witness :
    tABC.tree[1]? = some ((freeParams Nat).hashInner
      (tABC.tree.getD (left_child 1) (freeParams Nat).hashEmpty)
      (tABC.tree.getD (right_child 1) (freeParams Nat).hashEmpty)) ∧
    tABC.tree[next_power_of_two (([0, 1, 2] : List Nat)).length - 1 + 3]? =
      some (freeParams Nat).hashEmpty :=
  C8_node_invariants 3 (freeParams Nat) [0, 1, 2] tABC 1 3 (by rfl) (by decide)
    (by decide) (by decide)

/-! ### C9: the leaf-mismatch error of `generate_proof` -/

/-- C9: whenever the freshly computed hash of the supplied leaf differs from
the digest stored at the derived last-level position, `generate_proof` fails
with `IncorrectLeafIndex` carrying that position. -/
theorem C9_incorrect_leaf_index [DecidableEq β] (D : Nat) (P : Params α β)
    (t : MerkleTree β) (index : Nat) (leaf : α) (stored : β)
    (hget : t.tree[convert_index_to_last_level index
      (tree_depth t.tree.length)]? = some stored)
    (hne : P.hashLeaf leaf ≠ stored) :
    generate_proof D P t index leaf = .error (.merkle (.incorrectLeafIndex
      (convert_index_to_last_level index (tree_depth t.tree.length)))) := by
  simp only [generate_proof]
  rw [hget]
  simp only [if_pos hne]

/-- C9 witness: asking for leaf value 7 at index 1 of the three-leaf tree. -/
theorem C9_witness :
    generate_proof 3 (freeParams Nat) tABC 1 7 = .error (.merkle
      (.incorrectLeafIndex (convert_index_to_last_level 1
        (tree_depth tABC.tree.length)))) :=
  C9_incorrect_leaf_index 3 (freeParams Nat) tABC 1 7 (Digest.leafH 1)
    (by decide) (by decide)

/-! ### C10: bounds of the leaf lookup in `generate_proof` -/

/-- C10: in a complete tree of `2 ^ (k + 1) - 1` nodes, the derived last-level
position `index + 2 ^ tree_depth - 1` is inside the node array exactly when
`index` is below the leaf capacity `2 ^ tree_depth`; beyond it, the unchecked
lookup aborts the call abnormally. -/
theorem C10_leaf_lookup_bounds [DecidableEq β] (D k : Nat) (P : Params α β)
    (t : MerkleTree β) (index : Nat) (leaf : α)
    (hlen : t.tree.length = 2 ^ (k + 1) - 1) :
    (convert_index_to_last_level index (tree_depth t.tree.length) <
        t.tree.length ↔ index < 2 ^ tree_depth t.tree.length) ∧
    (2 ^ tree_depth t.tree.length ≤ index →
      generate_proof D P t index leaf = .error .panicked) := by
  have hpow : 1 ≤ 2 ^ k := Nat.one_le_two_pow
  have hd : tree_depth t.tree.length = k := by
    rw [hlen, tree_depth_eq_log]
    apply Nat.log_eq_of_pow_le_of_lt_pow
    · rw [pow_succ]; omega
    · omega
  constructor
  · rw [hd, hlen, convert_index_to_last_level, pow_succ]
    omega
  · intro hge
    rw [hd] at hge
    have hnone : t.tree[convert_index_to_last_level index
        (tree_depth t.tree.length)]? = none := by
      apply List.getElem?_eq_none
      rw [hd, hlen, convert_index_to_last_level, pow_succ]
      omega
    simp only [generate_proof]
    rw [hnone]

/-- C10 witness: index 5 on the three-leaf tree (capacity 4). -/
theorem C10_witness :
    (convert_index_to_last_level 5 (tree_depth tABC.tree.length) <
        tABC.tree.length ↔ 5 < 2 ^ tree_depth tABC.tree.length) ∧
    (2 ^ tree_depth tABC.tree.length ≤ 5 →
      generate_proof 3 (freeParams Nat) tABC 5 (0 : Nat) = .error .panicked) :=
  C10_leaf_lookup_bounds 3 2 (freeParams Nat) tABC 5 0 (by decide)

/-! ### The sibling walk of `generate_proof` -/

theorem path_upAux_congr (tree : List β) : ∀ f g i, i ≤ f → i ≤ g →
    path_upAux tree f i = path_upAux tree g i := by
  intro f
  induction f with
  | zero =>
    intro g i hf _
    interval_cases i
    cases g <;> rfl
  | succ f ih =>
    intro g i hf hg
    cases i with
    | zero => cases g <;> rfl
    | succ j =>
      cases g with
      | zero => omega
      | succ g =>
        simp only [path_upAux]
        have hd := Nat.div_le_self j 2
        rw [ih g (j / 2) (by omega) (by omega)]

theorem path_up_zero (tree : List β) : path_up tree 0 = some [] := rfl

theorem path_up_succ (tree : List β) (i : Nat) :
    path_up tree (i + 1) =
      tree[if (i + 1) % 2 == 1 then i + 2 else i]?.bind
        (fun dg => (path_up tree (i / 2)).map (dg :: ·)) := by
  show path_upAux tree (i + 1) (i + 1) = _
  simp only [path_upAux]
  have hd := Nat.div_le_self i 2
  rw [path_upAux_congr tree i (i / 2) (i / 2) (by omega) le_rfl]
  rfl

/-- In a tree with an odd number of nodes the sibling walk never leaves the
array. -/
theorem path_up_isSome (tree : List β) (hodd : tree.length % 2 = 1) :
    ∀ i, i < tree.length → (path_up tree i).isSome = true := by
  intro i
  induction i using Nat.strong_induction_on with
  | _ i ih =>
    intro hi
    cases i with
    | zero => rfl
    | succ j =>
      rw [path_up_succ]
      have hs : (if (j + 1) % 2 == 1 then j + 2 else j) < tree.length := by
        split
        · next hp =>
          have hp2 : (j + 1) % 2 = 1 := by simpa using hp
          omega
        · next hp =>
          omega
      rw [List.getElem?_eq_getElem hs]
      obtain ⟨p, hp⟩ := Option.isSome_iff_exists.1 (ih (j / 2) (by omega) (by omega))
      rw [hp]
      rfl

/-! ### C6: operations stop with a result or a typed error -/

/-- C6 counterexample: `generate_proof` at an out-of-range index on a freshly
built two-leaf tree stops abnormally (out-of-bounds indexing), so not every
call on a built tree returns a result or a `MerkleError`. -/
theorem C6_counterexample :
    isPanicked (generate_proof 2 (freeParams Nat)
      (okD (new 2 (freeParams Nat) [0, 1]) dfltTree) 2 (0 : Nat)) = true := by
  decide

/-- C6 amended: `new` never stops abnormally; `rebuild` does not stop
abnormally provided `start_index` is at most the old hashed-leaf count, the
old node array is nonempty, and the old padding is nonempty or the new top
hash differs from the old; `generate_proof` does not stop abnormally provided
the derived leaf position is inside the (odd-length) node array. -/
theorem C6_no_abnormal_stop [DecidableEq β] (D : Nat) (P : Params α β)
    (leaves new_leaves : List α) (self t : MerkleTree β)
    (start_index index : Nat) (leaf : α) :
    isPanicked (new D P leaves) = false ∧
    (start_index ≤ (hashed_leaves self).length →
      self.tree ≠ [] →
      (self.padding_tree ≠ [] ∨
        (rebuildTree P self start_index new_leaves).headD P.hashEmpty ≠
          self.tree.headD P.hashEmpty) →
      isPanicked (rebuild D P self start_index new_leaves) = false) ∧
    (t.tree.length % 2 = 1 →
      convert_index_to_last_level index (tree_depth t.tree.length) <
        t.tree.length →
      isPanicked (generate_proof D P t index leaf) = false) := by
  refine ⟨?_, ?_, ?_⟩
  · simp only [new]
    split <;> rfl
  · intro h1 h3 h4
    simp only [rebuild]
    split
    · rfl
    · rw [if_neg (show ¬ (start_index > (hashed_leaves self).length ∨
        start_index > next_power_of_two (start_index + new_leaves.length)) by
          push_neg
          exact ⟨h1, le_trans (Nat.le_add_right _ _)
            (le_next_power_of_two _)⟩)]
      rw [if_neg (show ¬ (self.tree.isEmpty = true) by
        simpa [List.isEmpty_iff] using h3)]
      split
      · next heq =>
        rcases h4 with hpad | hne
        · obtain ⟨pr, hpr⟩ := Option.isSome_iff_exists.1
            (List.getLast?_isSome.2 hpad)
          rw [hpr]
          rfl
        · exact absurd heq hne
      · rfl
  · intro hodd hidx
    simp only [generate_proof]
    rw [List.getElem?_eq_getElem hidx]
    dsimp only
    by_cases hne : P.hashLeaf leaf ≠
        t.tree[convert_index_to_last_level index (tree_depth t.tree.length)]
    · rw [if_pos hne]
      rfl
    · rw [if_neg hne]
      obtain ⟨p, hp⟩ := Option.isSome_iff_exists.1
        (path_up_isSome t.tree hodd _ hidx)
      rw [hp]
      dsimp only
      split
      · rfl
      · split <;> first | rfl | (split <;> rfl)

/-! ### Characterisation of `rebuild` -/

theorem rebuildTree_length [DecidableEq β] (P : Params α β)
    (self : MerkleTree β) (start_index : Nat) (new_leaves : List α) :
    (rebuildTree P self start_index new_leaves).length =
      2 * next_power_of_two (start_index + new_leaves.length) - 1 := by
  unfold rebuildTree
  simp

/-- The hashed-leaves slice of a tree array built by `new` is exactly the
hashed leaf row. -/
theorem newTree_drop (P : Params α β) (leaves : List α) :
    (newTree P leaves).drop (next_power_of_two leaves.length - 1) =
      hashed_leaf_row P leaves (next_power_of_two leaves.length) := by
  have hn : leaves.length ≤ next_power_of_two leaves.length :=
    le_next_power_of_two _
  have hL1 : 1 ≤ next_power_of_two leaves.length := next_power_of_two_pos _
  apply List.ext_getElem?
  intro j
  rw [List.getElem?_drop]
  by_cases hj : j < next_power_of_two leaves.length
  · have hij : next_power_of_two leaves.length - 1 + j <
        2 * next_power_of_two leaves.length - 1 := by omega
    rw [newTree_get P leaves _ hij, node_hash_leaf _ _ _ _ _ (by omega)]
    rw [show next_power_of_two leaves.length - 1 + j -
      (next_power_of_two leaves.length - 1) = j by omega]
    have hrl : j <
        (hashed_leaf_row P leaves (next_power_of_two leaves.length)).length := by
      rw [hashed_leaf_row_length P leaves _ hn]
      exact hj
    rw [List.getD_eq_getElem?_getD, List.getElem?_eq_getElem hrl]
    rfl
  · rw [List.getElem?_eq_none (by rw [newTree_length]; omega),
      List.getElem?_eq_none (by rw [hashed_leaf_row_length P leaves _ hn]; omega)]

theorem write_chunks_single (row : List β) (pos : Nat) (c : List β) :
    write_chunks row pos [c] =
      row.take pos ++ c ++ row.drop (pos + c.length) := rfl

/-- With a nonempty suffix of at most one batch, the leaf row assembled by
`rebuild` from a prefix-built leaf row equals the leaf row `new` assembles
for the concatenation. -/
theorem rebuild_leaf_row_eq (P : Params α β) (pre suffix : List α) (L₀ L : Nat)
    (hs1 : suffix ≠ []) (hs2 : suffix.length ≤ 500)
    (hL : pre.length + suffix.length ≤ L) :
    rebuild_leaf_row P (hashed_leaf_row P pre L₀) pre.length suffix L =
      hashed_leaf_row P (pre ++ suffix) L := by
  obtain ⟨x, xs, rfl⟩ : ∃ x xs, suffix = x :: xs := by
    cases suffix with
    | nil => exact absurd rfl hs1
    | cons x xs => exact ⟨x, xs, rfl⟩
  unfold rebuild_leaf_row
  rw [hash_row_single _ _ _ hs2, write_chunks_single,
    hashed_leaf_row_eq P pre L₀]
  have htake0 : (pre.map P.hashLeaf ++
      List.replicate (L₀ - pre.length) P.hashEmpty).take pre.length =
      pre.map P.hashLeaf := by
    have h := List.take_left (pre.map P.hashLeaf)
      (List.replicate (L₀ - pre.length) P.hashEmpty)
    simpa using h
  rw [htake0]
  have htake1 : (pre.map P.hashLeaf ++
      List.replicate (L - pre.length) P.hashEmpty).take pre.length =
      pre.map P.hashLeaf := by
    have h := List.take_left (pre.map P.hashLeaf)
      (List.replicate (L - pre.length) P.hashEmpty)
    simpa using h
  rw [htake1]
  have hdrop : (pre.map P.hashLeaf ++
      List.replicate (L - pre.length) P.hashEmpty).drop
        (pre.length + ((x :: xs).map P.hashLeaf).length) =
      List.replicate (L - pre.length - (x :: xs).length) P.hashEmpty := by
    rw [List.drop_append_eq_append_drop]
    rw [List.drop_eq_nil_of_le (by simp)]
    rw [List.drop_replicate]
    simp
  rw [hdrop, hashed_leaf_row_eq P (pre ++ x :: xs) L, List.map_append,
    List.length_append,
    show L - (pre.length + (x :: xs).length) =
      L - pre.length - (x :: xs).length by omega,
    List.append_assoc]

/-- Rebuilding on top of a tree array produced by `new` computes, node for
node, the same digests `new` itself would compute from the rebuilt leaf row:
a rehashed (dirty) node is recomputed from the already-correct children, and a
copied (clean) node has both stored child digests equal to the correct ones,
so the old tree's internal-node invariant forces the copied digest to agree. -/
theorem rebuild_node_eq [DecidableEq β] (P : Params α β) (pre : List α)
    (ni : List Nat) (L : Nat) (row : List β) :
    ∀ fuel i, rebuild_node P (newTree P pre) ni L row fuel i =
      node_hash P L row fuel i := by
  intro fuel
  induction fuel with
  | zero => intro i; rfl
  | succ fuel ih =>
    intro i
    simp only [rebuild_node, node_hash]
    by_cases hleaf : L - 1 ≤ i
    · rw [if_pos hleaf, if_pos hleaf]
    · rw [if_neg hleaf, if_neg hleaf, ih (left_child i), ih (right_child i)]
      by_cases hdirty : rebuild_dirty (newTree P pre) ni i
          (some (node_hash P L row fuel (left_child i)))
          (some (node_hash P L row fuel (right_child i))) = true
      · rw [if_pos hdirty]
      · rw [if_neg hdirty]
        have hl : (newTree P pre)[left_child i]? =
            some (node_hash P L row fuel (left_child i)) := by
          by_contra hc
          exact hdirty (by simp [rebuild_dirty, bne_iff_ne, hc])
        have hr : (newTree P pre)[right_child i]? =
            some (node_hash P L row fuel (right_child i)) := by
          by_contra hc
          exact hdirty (by simp [rebuild_dirty, bne_iff_ne, hc])
        have hlt : left_child i < (newTree P pre).length := by
          by_contra hc
          rw [List.getElem?_eq_none (by omega)] at hl
          cases hl
        rw [newTree_length] at hlt
        have hL01 : 1 ≤ next_power_of_two pre.length := next_power_of_two_pos _
        have hiL0 : i < next_power_of_two pre.length - 1 := by
          rw [left_child] at hlt
          omega
        have hio : i < 2 * next_power_of_two pre.length - 1 := by omega
        have hlo : left_child i < 2 * next_power_of_two pre.length - 1 := by
          rw [left_child]
          omega
        have hro : right_child i < 2 * next_power_of_two pre.length - 1 := by
          rw [right_child]
          omega
        have hlvl : tree_depth (i + 1) < tdOf pre.length := by
          rw [tree_depth_lt_iff, ← next_power_of_two_eq_pow_tdOf]
          omega
        obtain ⟨g, hg⟩ : ∃ g, tdOf pre.length - tree_depth (i + 1) = g + 1 :=
          ⟨tdOf pre.length - tree_depth (i + 1) - 1, by omega⟩
        rw [List.getD_eq_getElem?_getD, newTree_get P pre i hio, hg,
          node_hash_internal _ _ _ _ _ hiL0]
        rw [newTree_get P pre _ hlo] at hl
        rw [newTree_get P pre _ hro] at hr
        injection hl with hl
        injection hr with hr
        rw [tree_depth_left_child] at hl
        rw [tree_depth_right_child] at hr
        rw [show tdOf pre.length - (tree_depth (i + 1) + 1) = g by omega]
          at hl hr
        rw [hl, hr]
        rfl

/-- With a nonempty suffix of at most one batch, the node array assembled by
`rebuild` on a prefix-built tree equals the node array `new` assembles for
the concatenation. -/
theorem rebuildTree_eq [DecidableEq β] (D : Nat) (P : Params α β)
    (pre suffix : List α) (t : MerkleTree β)
    (hs1 : suffix ≠ []) (hs2 : suffix.length ≤ 500)
    (ht : new D P pre = .ok t) :
    rebuildTree P t pre.length suffix = newTree P (pre ++ suffix) := by
  obtain ⟨hD0, rfl⟩ := new_ok ht
  unfold rebuildTree hashed_leaves
  dsimp only
  rw [newTree_drop,
    rebuild_leaf_row_eq P pre suffix _ _ hs1 hs2 (le_next_power_of_two _)]
  rw [show newTree P (pre ++ suffix) =
      (List.range (2 * next_power_of_two (pre ++ suffix).length - 1)).map
        (fun i => node_hash P (next_power_of_two (pre ++ suffix).length)
          (hashed_leaf_row P (pre ++ suffix)
            (next_power_of_two (pre ++ suffix).length))
          (tdOf (pre ++ suffix).length - tree_depth (i + 1)) i) from rfl]
  simp only [List.length_append]
  apply List.map_congr_left
  intro i _
  exact rebuild_node_eq P pre _ _ _ _ i

/-! ### The root digest as a function of the leaf row -/

/-- Canonical full-binary combination of a row of `2 ^ f` digests. -/
def combine (P : Params α β) : Nat → List β → β
  | 0, row => row.headD P.hashEmpty
  | f + 1, row => P.hashInner (combine P f (row.take (2 ^ f)))
      (combine P f (row.drop (2 ^ f)))

theorem getD_take (l : List β) (n j : Nat) (d : β) (h : j < n) :
    (l.take n).getD j d = l.getD j d := by
  rw [List.getD_eq_getElem?_getD, List.getD_eq_getElem?_getD,
    List.getElem?_take, if_pos h]

theorem getD_drop (l : List β) (n j : Nat) (d : β) :
    (l.drop n).getD j d = l.getD (n + j) d := by
  rw [List.getD_eq_getElem?_getD, List.getD_eq_getElem?_getD,
    List.getElem?_drop]

/-- In a complete tree over `2 ^ d` leaf slots, the node at logical position
`q` of the level `d - f` (height `f`) combines the `2 ^ f` leaf digests below
it. -/
theorem node_hash_eq_combine (P : Params α β) :
    ∀ f d q (row : List β), f ≤ d → q < 2 ^ (d - f) →
      node_hash P (2 ^ d) row f (q + 2 ^ (d - f) - 1) =
      combine P f ((row.drop (q * 2 ^ f)).take (2 ^ f)) := by
  intro f
  induction f with
  | zero =>
    intro d q row _ hq
    rw [Nat.sub_zero] at hq
    have h1 : 1 ≤ (2 : Nat) ^ d := Nat.one_le_two_pow
    show row.getD (q + 2 ^ (d - 0) - 1 - (2 ^ d - 1)) P.hashEmpty =
      ((row.drop (q * 2 ^ 0)).take (2 ^ 0)).headD P.hashEmpty
    rw [Nat.sub_zero, show q + 2 ^ d - 1 - (2 ^ d - 1) = q by omega,
      pow_zero, Nat.mul_one, List.headD_eq_head?_getD, List.head?_eq_getElem?,
      List.getElem?_take, if_pos (by omega : (0 : Nat) < 1),
      List.getElem?_drop, Nat.add_zero, List.getD_eq_getElem?_getD]
  | succ f ih =>
    intro d q row hfd hq
    have hk : d - f = (d - (f + 1)) + 1 := by omega
    have hA : 1 ≤ (2 : Nat) ^ (d - (f + 1)) := Nat.one_le_two_pow
    have h2 : (2 : Nat) ^ (d - f) = 2 * 2 ^ (d - (f + 1)) := by
      rw [hk, pow_succ]
      ring
    have h3 : (2 : Nat) ^ (d - f) ≤ 2 ^ d :=
      Nat.pow_le_pow_right (by omega) (by omega)
    have hqlt : q + 2 ^ (d - (f + 1)) - 1 < 2 ^ d - 1 := by
      omega
    rw [node_hash_internal P (2 ^ d) row f _ hqlt,
      show left_child (q + 2 ^ (d - (f + 1)) - 1) =
        2 * q + 2 ^ (d - f) - 1 by rw [left_child]; omega,
      show right_child (q + 2 ^ (d - (f + 1)) - 1) =
        (2 * q + 1) + 2 ^ (d - f) - 1 by rw [right_child]; omega,
      ih d (2 * q) row (by omega) (by omega),
      ih d (2 * q + 1) row (by omega) (by omega)]
    show P.hashInner _ _ = P.hashInner
      (combine P f (((row.drop (q * 2 ^ (f + 1))).take (2 ^ (f + 1))).take
        (2 ^ f)))
      (combine P f (((row.drop (q * 2 ^ (f + 1))).take (2 ^ (f + 1))).drop
        (2 ^ f)))
    have hff : (2 : Nat) ^ f ≤ 2 ^ (f + 1) :=
      Nat.pow_le_pow_right (by omega) (by omega)
    have hpow : (2 : Nat) ^ (f + 1) = 2 ^ f * 2 := pow_succ 2 f
    congr 1
    · rw [List.take_take, min_eq_left hff,
        show q * 2 ^ (f + 1) = 2 * q * 2 ^ f by rw [hpow]; ring]
    · rw [List.drop_take, List.drop_drop,
        show (2 : Nat) ^ (f + 1) - 2 ^ f = 2 ^ f by omega]
      have e2 : (2 : Nat) ^ f + q * 2 ^ (f + 1) = (2 * q + 1) * 2 ^ f := by
        rw [hpow]; ring
      have e2' : q * 2 ^ (f + 1) + 2 ^ f = (2 * q + 1) * 2 ^ f := by
        rw [hpow]; ring
      first
      | rw [e2]
      | rw [e2']

/-- Height of a digest term of the free digest algebra. -/
def ht : Digest γ → Nat
  | .empty => 0
  | .leafH _ => 0
  | .innerH l r => 1 + max (ht l) (ht r)

/-- Over the free digest algebra, combining a row of height-0 digests `f`
levels up yields a digest of height exactly `f`. -/
theorem combine_ht (γ : Type) :
    ∀ f (row : List (Digest γ)), (∀ v ∈ row, ht v = 0) →
      ht (combine (freeParams γ) f row) = f := by
  intro f
  induction f with
  | zero =>
    intro row hrow
    show ht (row.headD Digest.empty) = 0
    cases row with
    | nil => rfl
    | cons a l => exact hrow a (List.mem_cons_self a l)
  | succ f ih =>
    intro row hrow
    show 1 + max (ht (combine (freeParams γ) f (row.take (2 ^ f))))
      (ht (combine (freeParams γ) f (row.drop (2 ^ f)))) = f + 1
    rw [ih _ (fun v hv => hrow v (List.mem_of_mem_take hv)),
      ih _ (fun v hv => hrow v (List.mem_of_mem_drop hv))]
    omega

/-- Over the free digest algebra, equal combined digests force equal rows. -/
theorem combine_inj (γ : Type) :
    ∀ f (r₁ r₂ : List (Digest γ)), r₁.length = 2 ^ f → r₂.length = 2 ^ f →
      combine (freeParams γ) f r₁ = combine (freeParams γ) f r₂ →
      ∀ j, j < 2 ^ f → r₁.getD j Digest.empty = r₂.getD j Digest.empty := by
  intro f
  induction f with
  | zero =>
    intro r₁ r₂ h₁ h₂ heq j hj
    interval_cases j
    cases r₁ with
    | nil => simp at h₁
    | cons a l₁ =>
      cases r₂ with
      | nil => simp at h₂
      | cons b l₂ => exact heq
  | succ f ih =>
    intro r₁ r₂ h₁ h₂ heq j hj
    have hpow : (2 : Nat) ^ (f + 1) = 2 ^ f * 2 := pow_succ 2 f
    have heq' : Digest.innerH (combine (freeParams γ) f (r₁.take (2 ^ f)))
        (combine (freeParams γ) f (r₁.drop (2 ^ f))) =
        Digest.innerH (combine (freeParams γ) f (r₂.take (2 ^ f)))
          (combine (freeParams γ) f (r₂.drop (2 ^ f))) := heq
    injection heq' with hTake hDrop
    by_cases hjf : j < 2 ^ f
    · have h := ih (r₁.take (2 ^ f)) (r₂.take (2 ^ f))
        (by rw [List.length_take]; omega) (by rw [List.length_take]; omega)
        hTake j hjf
      rwa [getD_take _ _ _ _ hjf, getD_take _ _ _ _ hjf] at h
    · have hj' : j - 2 ^ f < 2 ^ f := by omega
      have h := ih (r₁.drop (2 ^ f)) (r₂.drop (2 ^ f))
        (by rw [List.length_drop]; omega) (by rw [List.length_drop]; omega)
        hDrop (j - 2 ^ f) hj'
      rw [getD_drop, getD_drop, show 2 ^ f + (j - 2 ^ f) = j by omega] at h
      exact h

/-- The top node of `new`'s node array combines the whole hashed leaf row. -/
theorem newTree_root_eq_combine (P : Params α β) (leaves : List α) :
    (newTree P leaves).headD P.hashEmpty =
      combine P (tdOf leaves.length)
        (hashed_leaf_row P leaves (next_power_of_two leaves.length)) := by
  have hL1 : 1 ≤ next_power_of_two leaves.length := next_power_of_two_pos _
  have h0 : (0 : Nat) < 2 * next_power_of_two leaves.length - 1 := by omega
  rw [List.headD_eq_head?_getD, List.head?_eq_getElem?,
    newTree_get P leaves 0 h0, Option.getD_some,
    show tree_depth (0 + 1) = 0 from rfl, Nat.sub_zero]
  have hrl : (hashed_leaf_row P leaves
      (next_power_of_two leaves.length)).length =
      next_power_of_two leaves.length :=
    hashed_leaf_row_length P leaves _ (le_next_power_of_two _)
  have h := node_hash_eq_combine P (tdOf leaves.length) (tdOf leaves.length) 0
    (hashed_leaf_row P leaves (next_power_of_two leaves.length)) le_rfl
    (by simp)
  rw [Nat.sub_self, pow_zero] at h
  simp only [Nat.zero_mul, List.drop_zero, Nat.zero_add] at h
  rw [← next_power_of_two_eq_pow_tdOf] at h
  rw [List.take_of_length_le (by rw [hrl, next_power_of_two_eq_pow_tdOf])] at h
  simpa using h

/-- Every entry of a hashed leaf row over the free algebra has height 0. -/
theorem hashed_leaf_row_ht (γ : Type) (leaves : List γ) (L : Nat) :
    ∀ v ∈ hashed_leaf_row (freeParams γ) leaves L, ht v = 0 := by
  intro v hv
  rw [hashed_leaf_row_eq] at hv
  rcases List.mem_append.1 hv with h | h
  · obtain ⟨a, _, rfl⟩ := List.mem_map.1 h
    rfl
  · rw [List.eq_of_mem_replicate h]
    rfl

/-- Over the free digest algebra, appending at least one leaf always changes
the top-level hash. -/
theorem roots_differ (γ : Type) (pre suffix : List γ) (hs : suffix ≠ []) :
    (newTree (freeParams γ) (pre ++ suffix)).headD (freeParams γ).hashEmpty ≠
      (newTree (freeParams γ) pre).headD (freeParams γ).hashEmpty := by
  obtain ⟨x, xs, rfl⟩ : ∃ x xs, suffix = x :: xs := by
    cases suffix with
    | nil => exact absurd rfl hs
    | cons x xs => exact ⟨x, xs, rfl⟩
  intro heq
  rw [newTree_root_eq_combine, newTree_root_eq_combine] at heq
  have hlen₁ : (hashed_leaf_row (freeParams γ) (pre ++ x :: xs)
      (next_power_of_two (pre ++ x :: xs).length)).length =
      2 ^ tdOf (pre ++ x :: xs).length := by
    rw [hashed_leaf_row_length _ _ _ (le_next_power_of_two _),
      next_power_of_two_eq_pow_tdOf]
  have hlen₀ : (hashed_leaf_row (freeParams γ) pre
      (next_power_of_two pre.length)).length = 2 ^ tdOf pre.length := by
    rw [hashed_leaf_row_length _ _ _ (le_next_power_of_two _),
      next_power_of_two_eq_pow_tdOf]
  by_cases hd : tdOf (pre ++ x :: xs).length = tdOf pre.length
  · -- equal depths: the leaf rows must agree, but they differ at the
    -- position of the first appended leaf
    rw [hd] at heq hlen₁
    have hp : pre.length < 2 ^ tdOf pre.length := by
      have h1 : (pre ++ x :: xs).length ≤
          next_power_of_two (pre ++ x :: xs).length := le_next_power_of_two _
      rw [next_power_of_two_eq_pow_tdOf, hd, List.length_append] at h1
      simp at h1
      omega
    have h := combine_inj γ (tdOf pre.length) _ _ hlen₁ hlen₀ heq
      pre.length hp
    rw [hashed_leaf_row_eq, hashed_leaf_row_eq] at h
    rw [List.getD_eq_getElem?_getD, List.getD_eq_getElem?_getD] at h
    rw [List.getElem?_append_left (by simp), List.getElem?_append_right
      (by simp)] at h
    rw [List.getElem?_map, List.getElem?_append_right (by simp)] at h
    simp at h
    rw [List.getElem?_replicate] at h
    rw [if_pos (by rw [next_power_of_two_eq_pow_tdOf]; omega)] at h
    simp [freeParams] at h
  · -- different depths: the combined digests have different heights
    have h₁ := combine_ht γ (tdOf (pre ++ x :: xs).length)
      (hashed_leaf_row (freeParams γ) (pre ++ x :: xs)
        (next_power_of_two (pre ++ x :: xs).length))
      (hashed_leaf_row_ht γ (pre ++ x :: xs)
        (next_power_of_two (pre ++ x :: xs).length))
    have h₀ := combine_ht γ (tdOf pre.length)
      (hashed_leaf_row (freeParams γ) pre (next_power_of_two pre.length))
      (hashed_leaf_row_ht γ pre (next_power_of_two pre.length))
    rw [heq, h₀] at h₁
    exact hd h₁.symm

/-! ### C1: rebuild equivalence -/

theorem tree_of_new {D : Nat} {P : Params α β} {leaves : List α}
    {t : MerkleTree β} (h : new D P leaves = .ok t) :
    t.tree = newTree P leaves := by
  obtain ⟨_, rfl⟩ := new_ok h
  rfl

theorem hashed_leaves_of_new {D : Nat} {P : Params α β} {leaves : List α}
    {t : MerkleTree β} (h : new D P leaves = .ok t) :
    hashed_leaves t = hashed_leaf_row P leaves
      (next_power_of_two leaves.length) := by
  obtain ⟨_, rfl⟩ := new_ok h
  unfold hashed_leaves
  dsimp only
  exact newTree_drop P leaves

/-- C1 counterexample: split `[0]` into prefix `[0]` and the empty suffix
under `DEPTH = 1`: `new` on the concatenation succeeds, but `rebuild` stops
abnormally (unchanged top hash with an empty old padding), so no tree with
the same root and nodes is produced. -/
theorem C1_counterexample :
    isPanicked (rebuild 1 (freeParams Nat)
      (okD (new 1 (freeParams Nat) [0]) dfltTree) 1 ([] : List Nat)) = true ∧
    new 1 (freeParams Nat) ([0] ++ ([] : List Nat)) =
      .ok (okD (new 1 (freeParams Nat) [0]) dfltTree) :=
  ⟨by decide, by rfl⟩

/-- C1 amended: for every split with a nonempty suffix of at most one hash
batch (500 leaves), building the prefix with `new` and applying `rebuild`
with the suffix (at `start_index` = prefix length) returns exactly the tree
`new` builds on the concatenation — in particular the root and the entire
node array coincide (over the free, collision-free digest algebra). -/
theorem C1_rebuild_equivalence (D : Nat) (γ : Type) [DecidableEq γ]
    (pre suffix : List γ) (t u : MerkleTree (Digest γ))
    (hs1 : suffix ≠ []) (hs2 : suffix.length ≤ 500)
    (hpre : new D (freeParams γ) pre = .ok t)
    (hfull : new D (freeParams γ) (pre ++ suffix) = .ok u) :
    rebuild D (freeParams γ) t pre.length suffix = .ok u := by
  have htree := rebuildTree_eq D (freeParams γ) pre suffix t hs1 hs2 hpre
  have htr := tree_of_new hpre
  have hhl := hashed_leaves_of_new hpre
  have hL₀ : 1 ≤ next_power_of_two pre.length := next_power_of_two_pos _
  obtain ⟨hD, rfl⟩ := new_ok hfull
  have hDlen : ¬ (tree_depth (2 * next_power_of_two
      (pre.length + suffix.length) - 1) > D) := by
    rw [tdOf, List.length_append] at hD
    omega
  simp only [rebuild]
  rw [if_neg hDlen]
  rw [if_neg (show ¬ (pre.length > (hashed_leaves t).length ∨
      pre.length > next_power_of_two (pre.length + suffix.length)) by
    push_neg
    constructor
    · rw [hhl, hashed_leaf_row_length _ _ _ (le_next_power_of_two _)]
      exact le_next_power_of_two _
    · exact le_trans (Nat.le_add_right _ _) (le_next_power_of_two _))]
  rw [if_neg (show ¬ (t.tree.isEmpty = true) by
    rw [htr]
    simp only [List.isEmpty_iff]
    apply List.ne_nil_of_length_pos
    rw [newTree_length]
    omega)]
  rw [htree, htr, if_neg (roots_differ γ pre suffix hs1)]
  simp only [tdOf, List.length_append]

/-- A one-leaf tree and a two-leaf tree under `DEPTH = 2`. -/
def tPre2 : MerkleTree (Digest Nat) := okD (new 2 (freeParams Nat) [0]) dfltTree

def tFull2 : MerkleTree (Digest Nat) :=
  okD (new 2 (freeParams Nat) [0, 1]) dfltTree

/-- C1 witness: appending `[1]` to the one-leaf tree reproduces the two-leaf
tree exactly. -/
theorem C1_witness :
    rebuild 2 (freeParams Nat) tPre2 ([0] : List Nat).length [1] =
      .ok tFull2 :=
  C1_rebuild_equivalence 2 Nat [0] [1] tPre2 tFull2 (by decide) (by decide)
    (by rfl) (by rfl)

/-! ### C3: the dirty set of `rebuild` -/

/-- Modelled from the spec: the claimed dirty condition — the node is itself a
newly-populated leaf-level array index, either child digest differs between
the old and the newly assembled tree at that flat position, or the node is a
strict ancestor of a newly appended leaf's array index. -/
def claim_dirty (old newT : List β) (start len L i : Nat) : Prop :=
  (∃ idx ∈ (List.range len).map (start + ·), i = idx + (L - 1)) ∨
  old[left_child i]? ≠ newT[left_child i]? ∨
  old[right_child i]? ≠ newT[right_child i]? ∨
  (∃ idx ∈ (List.range len).map (start + ·), i ∈ ancestors (idx + (L - 1)))

/-- The condition `rebuild` actually tests, written out arithmetically: the
node's flat index lies in the raw logical range `[start, start + len)`, a
child digest differs, or the node occurs in the parent chain of a raw value
in `[start, start + len)` read as a flat index. -/
def rebuild_dirty_spec (old : List β) (start len i : Nat)
    (lv rv : Option β) : Prop :=
  (start ≤ i ∧ i < start + len) ∨
  old[left_child i]? ≠ lv ∨ old[right_child i]? ≠ rv ∨
  (∃ idx ∈ (List.range len).map (start + ·), i ∈ ancestors idx)

theorem mem_range_map_add {start len j : Nat} :
    j ∈ (List.range len).map (start + ·) ↔ start ≤ j ∧ j < start + len := by
  simp only [List.mem_map, List.mem_range]
  constructor
  · rintro ⟨x, hx, rfl⟩
    omega
  · intro ⟨h1, h2⟩
    exact ⟨j - start, by omega, by omega⟩

theorem rebuild_ok_tree [DecidableEq β] {D : Nat} {P : Params α β}
    {self t' : MerkleTree β} {start_index : Nat} {new_leaves : List α}
    (h : rebuild D P self start_index new_leaves = .ok t') :
    t'.tree = rebuildTree P self start_index new_leaves := by
  simp only [rebuild] at h
  split at h
  · exact absurd h (by simp)
  · split at h
    · exact absurd h (by simp)
    · split at h
      · exact absurd h (by simp)
      · split at h
        · split at h
          · exact absurd h (by simp)
          · injection h with h
            rw [← h]
        · injection h with h
          rw [← h]

theorem rebuildTree_get [DecidableEq β] (P : Params α β) (self : MerkleTree β)
    (start_index : Nat) (new_leaves : List α) (i : Nat)
    (hi : i < 2 * next_power_of_two (start_index + new_leaves.length) - 1) :
    (rebuildTree P self start_index new_leaves)[i]? = some
      (rebuild_node P self.tree
        ((List.range new_leaves.length).map (start_index + ·))
        (next_power_of_two (start_index + new_leaves.length))
        (rebuild_leaf_row P (hashed_leaves self) start_index new_leaves
          (next_power_of_two (start_index + new_leaves.length)))
        (tree_depth (2 * next_power_of_two (start_index + new_leaves.length)
          - 1) - tree_depth (i + 1)) i) := by
  unfold rebuildTree
  rw [List.getElem?_map, List.getElem?_range hi]
  rfl

theorem getD_append_left (l₁ l₂ : List β) (j : Nat) (d : β)
    (h : j < l₁.length) : (l₁ ++ l₂).getD j d = l₁.getD j d := by
  rw [List.getD_eq_getElem?_getD, List.getD_eq_getElem?_getD,
    List.getElem?_append_left h]

theorem getD_append_right (l₁ l₂ : List β) (j : Nat) (d : β)
    (h : l₁.length ≤ j) :
    (l₁ ++ l₂).getD j d = l₂.getD (j - l₁.length) d := by
  rw [List.getD_eq_getElem?_getD, List.getD_eq_getElem?_getD,
    List.getElem?_append_right h]

/-- When no growth occurs, the initial leaf row of `rebuild` (old digests for
`[0, start)`, empty elsewhere) is exactly the old hashed leaf row. -/
theorem rebuild_row0_eq (P : Params α β) (pre : List α) (L : Nat) :
    (hashed_leaf_row P pre L).take pre.length ++
      List.replicate (L - pre.length) P.hashEmpty =
      hashed_leaf_row P pre L := by
  rw [hashed_leaf_row_eq]
  have htake : (pre.map P.hashLeaf ++
      List.replicate (L - pre.length) P.hashEmpty).take pre.length =
      pre.map P.hashLeaf := by
    have h := List.take_left (pre.map P.hashLeaf)
      (List.replicate (L - pre.length) P.hashEmpty)
    simpa using h
  rw [htake]

/-- Leaf positions outside the appended range are unchanged by the leaf-row
assembly of `rebuild` (no growth, at most one batch). -/
theorem rebuild_leaf_row_untouched (P : Params α β) (pre suffix : List α)
    (L : Nat) (hs2 : suffix.length ≤ 500)
    (hpL : pre.length + suffix.length ≤ L) (j : Nat)
    (hj : j < pre.length ∨ pre.length + suffix.length ≤ j) :
    (rebuild_leaf_row P (hashed_leaf_row P pre L) pre.length suffix L).getD j
      P.hashEmpty = (hashed_leaf_row P pre L).getD j P.hashEmpty := by
  cases suffix with
  | nil =>
    show ((hashed_leaf_row P pre L).take pre.length ++
      List.replicate (L - pre.length) P.hashEmpty).getD j P.hashEmpty = _
    rw [rebuild_row0_eq]
  | cons x xs =>
    unfold rebuild_leaf_row
    rw [hash_row_single _ _ _ hs2, write_chunks_single, rebuild_row0_eq]
    have hlen : pre.length + (x :: xs).length ≤
        (hashed_leaf_row P pre L).length := by
      rw [hashed_leaf_row_length P pre L (by omega)]
      exact hpL
    have hlL : pre.length ≤ (hashed_leaf_row P pre L).length := by
      rw [hashed_leaf_row_length P pre L (by omega)]
      omega
    have hlen2 : ((hashed_leaf_row P pre L).take pre.length ++
        (x :: xs).map P.hashLeaf).length =
        pre.length + (x :: xs).length := by
      rw [List.length_append, List.length_take, List.length_map]
      omega
    rcases hj with hj | hj
    · rw [getD_append_left _ _ _ _ (by rw [hlen2]; omega)]
      rw [getD_append_left _ _ _ _ (by rw [List.length_take]; omega)]
      rw [getD_take _ _ _ _ hj]
    · rw [getD_append_right _ _ _ _ (by rw [hlen2]; omega)]
      rw [getD_drop, hlen2, List.length_map,
        show pre.length + (x :: xs).length +
          (j - (pre.length + (x :: xs).length)) = j by omega]

/-- An internal node of `new`'s node array is the inner hash of its two
children (in `getD` form). -/
theorem newTree_getD_internal (P : Params α β) (leaves : List α) (i : Nat)
    (hi : i < next_power_of_two leaves.length - 1) :
    (newTree P leaves).getD i P.hashEmpty =
      P.hashInner ((newTree P leaves).getD (left_child i) P.hashEmpty)
        ((newTree P leaves).getD (right_child i) P.hashEmpty) := by
  have hL1 : 1 ≤ next_power_of_two leaves.length := next_power_of_two_pos _
  have his : i < 2 * next_power_of_two leaves.length - 1 := by omega
  have hls : left_child i < 2 * next_power_of_two leaves.length - 1 := by
    rw [left_child]
    omega
  have hrs : right_child i < 2 * next_power_of_two leaves.length - 1 := by
    rw [right_child]
    omega
  have hlvl : tree_depth (i + 1) < tdOf leaves.length := by
    rw [tree_depth_lt_iff, ← next_power_of_two_eq_pow_tdOf]
    omega
  obtain ⟨g, hg⟩ : ∃ g, tdOf leaves.length - tree_depth (i + 1) = g + 1 :=
    ⟨tdOf leaves.length - tree_depth (i + 1) - 1, by omega⟩
  rw [List.getD_eq_getElem?_getD, List.getD_eq_getElem?_getD,
    List.getD_eq_getElem?_getD, newTree_get P leaves i his,
    newTree_get P leaves _ hls, newTree_get P leaves _ hrs, hg,
    node_hash_internal _ _ _ _ _ hi, tree_depth_left_child,
    tree_depth_right_child,
    show tdOf leaves.length - (tree_depth (i + 1) + 1) = g by omega]
  rfl

/-- The leaf-level slot of an untouched position holds the old digest. -/
theorem rebuild_getD_leaf_untouched (P : Params α β) (pre suffix : List α)
    (hs2 : suffix.length ≤ 500)
    (hpL : pre.length + suffix.length ≤ next_power_of_two pre.length)
    (i : Nat)
    (hunt : ∀ idx ∈ (List.range suffix.length).map (pre.length + ·),
      i ≠ idx + (next_power_of_two pre.length - 1) ∧
      i ∉ ancestors (idx + (next_power_of_two pre.length - 1)))
    (hleaf : next_power_of_two pre.length - 1 ≤ i)
    (hi : i < 2 * next_power_of_two pre.length - 1) :
    (rebuild_leaf_row P (hashed_leaf_row P pre (next_power_of_two pre.length))
      pre.length suffix (next_power_of_two pre.length)).getD
      (i - (next_power_of_two pre.length - 1)) P.hashEmpty =
    (newTree P pre).getD i P.hashEmpty := by
  have hj : i - (next_power_of_two pre.length - 1) < pre.length ∨
      pre.length + suffix.length ≤
        i - (next_power_of_two pre.length - 1) := by
    by_contra hc
    push_neg at hc
    obtain ⟨h1, h2⟩ := hc
    have hmem : i - (next_power_of_two pre.length - 1) ∈
        (List.range suffix.length).map (pre.length + ·) := by
      rw [mem_range_map_add]
      omega
    exact (hunt _ hmem).1 (by omega)
  rw [rebuild_leaf_row_untouched P pre suffix _ hs2 hpL _ hj]
  rw [List.getD_eq_getElem?_getD (newTree P pre), newTree_get P pre i hi,
    node_hash_leaf _ _ _ _ _ hleaf, Option.getD_some]

/-- Untouched nodes of the rebuilt array (no growth, at most one batch) carry
exactly the old tree's digests. -/
theorem rebuild_node_untouched [DecidableEq β] (P : Params α β)
    (pre suffix : List α) (hs2 : suffix.length ≤ 500)
    (hpL : pre.length + suffix.length ≤ next_power_of_two pre.length) :
    ∀ fuel i,
      (∀ idx ∈ (List.range suffix.length).map (pre.length + ·),
        i ≠ idx + (next_power_of_two pre.length - 1) ∧
        i ∉ ancestors (idx + (next_power_of_two pre.length - 1))) →
      i < 2 * next_power_of_two pre.length - 1 →
      tdOf pre.length ≤ fuel + tree_depth (i + 1) →
      rebuild_node P (newTree P pre)
        ((List.range suffix.length).map (pre.length + ·))
        (next_power_of_two pre.length)
        (rebuild_leaf_row P
          (hashed_leaf_row P pre (next_power_of_two pre.length))
          pre.length suffix (next_power_of_two pre.length))
        fuel i = (newTree P pre).getD i P.hashEmpty := by
  intro fuel
  induction fuel with
  | zero =>
    intro i hunt hi hfuel
    have hleaf : next_power_of_two pre.length - 1 ≤ i := by
      by_contra hc
      have hlvl : tree_depth (i + 1) < tdOf pre.length := by
        rw [tree_depth_lt_iff, ← next_power_of_two_eq_pow_tdOf]
        omega
      omega
    exact rebuild_getD_leaf_untouched P pre suffix hs2 hpL i hunt hleaf hi
  | succ fuel ih =>
    intro i hunt hi hfuel
    by_cases hleaf : next_power_of_two pre.length - 1 ≤ i
    · simp only [rebuild_node]
      rw [if_pos hleaf]
      exact rebuild_getD_leaf_untouched P pre suffix hs2 hpL i hunt hleaf hi
    · have hiL : i < next_power_of_two pre.length - 1 := by omega
      simp only [rebuild_node]
      rw [if_neg hleaf]
      have huntl : ∀ idx ∈ (List.range suffix.length).map (pre.length + ·),
          left_child i ≠ idx + (next_power_of_two pre.length - 1) ∧
          left_child i ∉
            ancestors (idx + (next_power_of_two pre.length - 1)) := by
        intro idx hidx
        obtain ⟨_, hna⟩ := hunt idx hidx
        constructor
        · intro hceq
          exact hna (hceq ▸ mem_ancestors_left_child i)
        · intro hmem
          exact hna (ancestors_trans _ _ _ hmem (mem_ancestors_left_child i))
      have huntr : ∀ idx ∈ (List.range suffix.length).map (pre.length + ·),
          right_child i ≠ idx + (next_power_of_two pre.length - 1) ∧
          right_child i ∉
            ancestors (idx + (next_power_of_two pre.length - 1)) := by
        intro idx hidx
        obtain ⟨_, hna⟩ := hunt idx hidx
        constructor
        · intro hceq
          exact hna (hceq ▸ mem_ancestors_right_child i)
        · intro hmem
          exact hna (ancestors_trans _ _ _ hmem (mem_ancestors_right_child i))
      have hls : left_child i < 2 * next_power_of_two pre.length - 1 := by
        rw [left_child]
        omega
      have hrs : right_child i < 2 * next_power_of_two pre.length - 1 := by
        rw [right_child]
        omega
      have hfl : tdOf pre.length ≤ fuel + tree_depth (left_child i + 1) := by
        rw [tree_depth_left_child]
        omega
      have hfr : tdOf pre.length ≤ fuel + tree_depth (right_child i + 1) := by
        rw [tree_depth_right_child]
        omega
      rw [ih (left_child i) huntl hls hfl, ih (right_child i) huntr hrs hfr]
      by_cases hdirty : rebuild_dirty (newTree P pre)
          ((List.range suffix.length).map (pre.length + ·)) i
          (some ((newTree P pre).getD (left_child i) P.hashEmpty))
          (some ((newTree P pre).getD (right_child i) P.hashEmpty)) = true
      · rw [if_pos hdirty, newTree_getD_internal P pre i hiL]
      · rw [if_neg hdirty]

/-- Seven leaves under `DEPTH = 4` (a node array of 15 slots). -/
def tOld7 : MerkleTree (Digest Nat) :=
  okD (new 4 (freeParams Nat) [0, 1, 2, 3, 4, 5, 6]) dfltTree

/-- The tree rebuilt from `tOld7` by appending leaf 7. -/
def tReb7 : MerkleTree (Digest Nat) :=
  okD (rebuild 4 (freeParams Nat) tOld7 7 [7]) dfltTree

/-- C3 counterexample: appending leaf 7 to the seven-leaf tree, internal node
3 is rehashed by the code (it lies in the parent chain of the raw index 7),
yet it is not a newly populated leaf position, both its children are
unchanged, and it is not a strict ancestor of the appended leaf's array
position 14 — so the claimed characterisation of the rehashed set is false. -/
theorem C3_counterexample :
    rebuild_dirty tOld7.tree ((List.range 1).map (7 + ·)) 3
      (some (rebuild_node (freeParams Nat) tOld7.tree
        ((List.range 1).map (7 + ·)) 8
        (rebuild_leaf_row (freeParams Nat) (hashed_leaves tOld7) 7 [7] 8) 0
        (left_child 3)))
      (some (rebuild_node (freeParams Nat) tOld7.tree
        ((List.range 1).map (7 + ·)) 8
        (rebuild_leaf_row (freeParams Nat) (hashed_leaves tOld7) 7 [7] 8) 0
        (right_child 3))) = true ∧
    ¬ claim_dirty tOld7.tree (rebuildTree (freeParams Nat) tOld7 7 [7]) 7 1 8
      3 := by
  constructor
  · decide
  · unfold claim_dirty
    decide

/-- C3 amended: the set of nodes `rebuild` rehashes is characterised by the
raw-index condition (flat index inside `[start, start+len)`, a child digest
differing between old and new tree at that flat position, or membership in
the parent chain of a raw index of `[start, start+len)`); and in a no-growth
rebuild with at most one hash batch, every node that is neither a newly
populated leaf position nor a strict ancestor of one is byte-identical to
the node at the same flat index of the prior tree. -/
theorem C3_dirty_characterisation (D : Nat) (P : Params α β) [DecidableEq β]
    (pre suffix : List α) (told t' : MerkleTree β) (i : Nat)
    (hpre : new D P pre = .ok told)
    (hsize : next_power_of_two (pre.length + suffix.length) =
      next_power_of_two pre.length)
    (hs2 : suffix.length ≤ 500)
    (hreb : rebuild D P told pre.length suffix = .ok t') :
    (∀ (old : List β) (lv rv : Option β),
      rebuild_dirty old ((List.range suffix.length).map (pre.length + ·)) i
        lv rv = true ↔
      rebuild_dirty_spec old pre.length suffix.length i lv rv) ∧
    ((∀ idx ∈ (List.range suffix.length).map (pre.length + ·),
        i ≠ idx + (next_power_of_two (pre.length + suffix.length) - 1) ∧
        i ∉ ancestors
          (idx + (next_power_of_two (pre.length + suffix.length) - 1))) →
      t'.tree[i]? = told.tree[i]?) := by
  constructor
  · intro old lv rv
    unfold rebuild_dirty rebuild_dirty_spec
    simp only [Bool.or_eq_true, List.elem_iff, List.any_eq_true,
      bne_iff_ne, ne_eq, mem_range_map_add]
    tauto
  · intro hunt
    have ht' := rebuild_ok_tree hreb
    have htr := tree_of_new hpre
    have hhl := hashed_leaves_of_new hpre
    have hpL : pre.length + suffix.length ≤ next_power_of_two pre.length := by
      rw [← hsize]
      exact le_next_power_of_two _
    rw [hsize] at hunt
    rw [ht', htr]
    by_cases hi : i < 2 * next_power_of_two pre.length - 1
    · rw [rebuildTree_get P told pre.length suffix i (by rw [hsize]; exact hi)]
      rw [hsize, hhl, htr]
      have hlvl : tree_depth (i + 1) ≤ tdOf pre.length := by
        apply tree_depth_le_of_lt_size (d := tdOf pre.length)
        rw [← next_power_of_two_eq_pow_tdOf]
        exact hi
      rw [rebuild_node_untouched P pre suffix hs2 hpL _ i hunt hi
        (by rw [show tree_depth (2 * next_power_of_two pre.length - 1) =
          tdOf pre.length from rfl]; omega)]
      rw [List.getD_eq_getElem?_getD,
        List.getElem?_eq_getElem (by rw [newTree_length]; exact hi)]
      rfl
    · rw [List.getElem?_eq_none (by rw [rebuildTree_length, hsize]; omega),
        List.getElem?_eq_none (by rw [newTree_length]; omega)]

/-- C3 witness: the seven-leaf tree with leaf 7 appended, at internal node 3
(untouched: its children hold leaves 0 and 1). -/
theorem C3_witness :
    (rebuild_dirty tOld7.tree ((List.range ([7] : List Nat).length).map
        ((([0, 1, 2, 3, 4, 5, 6] : List Nat)).length + ·)) 3 none none =
        true ↔
      rebuild_dirty_spec tOld7.tree ([0, 1, 2, 3, 4, 5, 6] : List Nat).length
        ([7] : List Nat).length 3 none none) ∧
    tReb7.tree[3]? = tOld7.tree[3]? := by
  have h := C3_dirty_characterisation 4 (freeParams Nat)
    [0, 1, 2, 3, 4, 5, 6] [7] tOld7 tReb7 3 (by rfl) (by decide) (by decide)
    (by rfl)
  exact ⟨h.1 tOld7.tree none none, h.2 (by decide)⟩

/-! ### C2: proof round-trip -/

/-- Modelled from the spec: the external verifier's walk, folding upward from
the hashed leaf with the inner-node hash, choosing left/right from the
logical index's parity at each level (an even index is a left child). -/
def path_fold (P : Params α β) : β → Nat → List β → β
  | acc, _, [] => acc
  | acc, index, s :: rest =>
    path_fold P
      (if index % 2 == 0 then P.hashInner acc s else P.hashInner s acc)
      (index / 2) rest

/-- The success path of a proof-generation run. -/
def pathOf (r : Except RunError (MerklePath β)) : Option (List β) :=
  match r with
  | .ok p => some p.path
  | .error _ => none

theorem path_fold_append (P : Params α β) :
    ∀ (l₁ l₂ : List β) (acc : β) (index : Nat),
      path_fold P acc index (l₁ ++ l₂) =
        path_fold P (path_fold P acc index l₁) (index / 2 ^ l₁.length) l₂ := by
  intro l₁
  induction l₁ with
  | nil => intro l₂ acc index; simp [path_fold]
  | cons s rest ih =>
    intro l₂ acc index
    show path_fold P _ (index / 2) (rest ++ l₂) = _
    rw [ih]
    rw [show index / 2 / 2 ^ rest.length = index / 2 ^ (s :: rest).length by
      rw [Nat.div_div_eq_div_mul, List.length_cons, pow_succ]
      ring_nf]
    rfl

theorem path_fold_replicate_empty (P : Params α β) :
    ∀ m (acc : β),
      path_fold P acc 0 (List.replicate m P.hashEmpty) = hash_chain P m acc := by
  intro m
  induction m with
  | zero => intro acc; rfl
  | succ m ih =>
    intro acc
    rw [List.replicate_succ]
    show path_fold P (P.hashInner acc P.hashEmpty) 0
      (List.replicate m P.hashEmpty) = _
    rw [ih]
    rfl

theorem headD_eq_getD_zero (l : List β) (d : β) : l.headD d = l.getD 0 d := by
  rw [List.headD_eq_head?_getD, List.head?_eq_getElem?,
    List.getD_eq_getElem?_getD]

/-- Walking up from any node of `new`'s array collects one sibling per level
and folds back to the top node. -/
theorem path_walk (P : Params α β) (leaves : List α) :
    ∀ k q, k ≤ tdOf leaves.length → q < 2 ^ k →
      ∃ pth, path_up (newTree P leaves) (q + 2 ^ k - 1) = some pth ∧
        pth.length = k ∧
        path_fold P ((newTree P leaves).getD (q + 2 ^ k - 1) P.hashEmpty) q
          pth = (newTree P leaves).getD 0 P.hashEmpty := by
  intro k
  induction k with
  | zero =>
    intro q _ hq
    interval_cases q
    exact ⟨[], rfl, rfl, rfl⟩
  | succ k ih =>
    intro q hk hq
    have hA : 1 ≤ (2 : Nat) ^ k := Nat.one_le_two_pow
    have hB : (2 : Nat) ^ (k + 1) = 2 * 2 ^ k := by rw [pow_succ]; ring
    have hL : (2 : Nat) ^ (k + 1) ≤ 2 ^ tdOf leaves.length :=
      Nat.pow_le_pow_right (by omega) hk
    have hLnp : next_power_of_two leaves.length = 2 ^ tdOf leaves.length :=
      next_power_of_two_eq_pow_tdOf _
    -- the walked node, written in successor form
    rw [show q + 2 ^ (k + 1) - 1 = (q + 2 ^ (k + 1) - 2) + 1 by omega]
    rw [path_up_succ]
    -- the sibling index
    have hsib : (if ((q + 2 ^ (k + 1) - 2) + 1) % 2 == 1
        then (q + 2 ^ (k + 1) - 2) + 2 else (q + 2 ^ (k + 1) - 2)) =
        (if q % 2 = 0 then q + 1 else q - 1) + 2 ^ (k + 1) - 1 := by
      by_cases hpar : q % 2 = 0
      · rw [if_pos (by simp; omega), if_pos hpar]
        omega
      · rw [if_neg (by simp; omega), if_neg hpar]
        omega
    rw [hsib]
    -- the parent index
    have hpar2 : (q + 2 ^ (k + 1) - 2) / 2 = q / 2 + 2 ^ k - 1 := by omega
    rw [hpar2]
    have hsiblt : (if q % 2 = 0 then q + 1 else q - 1) + 2 ^ (k + 1) - 1 <
        2 * next_power_of_two leaves.length - 1 := by
      rw [hLnp]
      split <;> omega
    have hsv : (newTree P leaves)[(if q % 2 = 0 then q + 1 else q - 1) +
        2 ^ (k + 1) - 1]? = some ((newTree P leaves).getD
          ((if q % 2 = 0 then q + 1 else q - 1) + 2 ^ (k + 1) - 1)
          P.hashEmpty) := by
      rw [List.getD_eq_getElem?_getD,
        List.getElem?_eq_getElem (by rw [newTree_length]; exact hsiblt)]
      rfl
    rw [hsv]
    obtain ⟨pth, hup, hlen, hfold⟩ := ih (q / 2) (by omega) (by omega)
    rw [hup]
    refine ⟨(newTree P leaves).getD ((if q % 2 = 0 then q + 1 else q - 1) +
      2 ^ (k + 1) - 1) P.hashEmpty :: pth, rfl, by simp [hlen], ?_⟩
    -- one folding step reaches the parent
    have hplt : q / 2 + 2 ^ k - 1 < next_power_of_two leaves.length - 1 := by
      rw [hLnp]
      omega
    have hstep : (if q % 2 == 0 then
        P.hashInner ((newTree P leaves).getD ((q + 2 ^ (k + 1) - 2) + 1)
          P.hashEmpty)
          ((newTree P leaves).getD ((if q % 2 = 0 then q + 1 else q - 1) +
            2 ^ (k + 1) - 1) P.hashEmpty)
      else
        P.hashInner ((newTree P leaves).getD ((if q % 2 = 0 then q + 1 else
            q - 1) + 2 ^ (k + 1) - 1) P.hashEmpty)
          ((newTree P leaves).getD ((q + 2 ^ (k + 1) - 2) + 1) P.hashEmpty)) =
        (newTree P leaves).getD (q / 2 + 2 ^ k - 1) P.hashEmpty := by
      rw [newTree_getD_internal P leaves _ hplt]
      by_cases hpar : q % 2 = 0
      · rw [if_pos (by simp [hpar]), if_pos hpar]
        have hlc : left_child (q / 2 + 2 ^ k - 1) = (q + 2 ^ (k + 1) - 2) + 1
            := by
          rw [left_child]
          omega
        have hrc : right_child (q / 2 + 2 ^ k - 1) = (q + 1) + 2 ^ (k + 1) - 1
            := by
          rw [right_child]
          omega
        rw [hlc, hrc]
      · rw [if_neg (by simp [hpar]), if_neg hpar]
        have hlc : left_child (q / 2 + 2 ^ k - 1) = (q - 1) + 2 ^ (k + 1) - 1
            := by
          rw [left_child]
          omega
        have hrc : right_child (q / 2 + 2 ^ k - 1) = (q + 2 ^ (k + 1) - 2) + 1
            := by
          rw [right_child]
          omega
        rw [hlc, hrc]
    show path_fold P _ (q / 2) pth = _
    rw [hstep]
    exact hfold

/-- C2: for every tree built by `new` and every logical leaf index below the
supplied leaf count, `generate_proof` with the originally supplied leaf
succeeds, the returned path has exactly `DEPTH` sibling digests, and folding
upward from the hashed leaf with the inner-node hash along the path (choosing
left/right from the index parity at each level) reproduces the tree's root. -/
theorem C2_proof_roundtrip [DecidableEq β] (D : Nat) (P : Params α β)
    (leaves : List α) (t : MerkleTree β) (i : Nat) (lf : α)
    (ht : new D P leaves = .ok t) (hlf : leaves[i]? = some lf) :
    (pathOf (generate_proof D P t i lf)).map List.length = some D ∧
    (pathOf (generate_proof D P t i lf)).map (path_fold P (P.hashLeaf lf) i) =
      t.root := by
  obtain ⟨hD, htEq⟩ := new_ok ht
  subst htEq
  have hi : i < leaves.length := by
    by_contra hcon
    rw [List.getElem?_eq_none (by omega)] at hlf
    exact absurd hlf (by simp)
  have hLpow : next_power_of_two leaves.length = 2 ^ tdOf leaves.length :=
    next_power_of_two_eq_pow_tdOf _
  have hnle : leaves.length ≤ next_power_of_two leaves.length :=
    le_next_power_of_two _
  have hiL : i < 2 ^ tdOf leaves.length := by omega
  have htd2 : tree_depth (newTree P leaves).length = tdOf leaves.length := by
    rw [newTree_length, hLpow]
    exact tree_depth_size _
  have hstored : (newTree P leaves)[i + 2 ^ tdOf leaves.length - 1]? =
      some (P.hashLeaf lf) := by
    rw [newTree_get P leaves _ (by rw [hLpow]; omega)]
    have hle : next_power_of_two leaves.length - 1 ≤
        i + 2 ^ tdOf leaves.length - 1 := by
      rw [hLpow]
      omega
    rw [node_hash_leaf _ _ _ _ _ hle]
    rw [show i + 2 ^ tdOf leaves.length - 1 -
      (next_power_of_two leaves.length - 1) = i by rw [hLpow]; omega]
    rw [List.getD_eq_getElem?_getD, hashed_leaf_row_get_lt hi, hlf]
    rfl
  have hgetD : (newTree P leaves).getD (i + 2 ^ tdOf leaves.length - 1)
      P.hashEmpty = P.hashLeaf lf := by
    rw [List.getD_eq_getElem?_getD, hstored]
    rfl
  obtain ⟨pth, hup, hplen, hfold⟩ :=
    path_walk P leaves (tdOf leaves.length) i le_rfl hiL
  rw [hgetD] at hfold
  have hroot : (pad_chain D P (tdOf leaves.length)
      ((newTree P leaves).headD P.hashEmpty)).1 =
      hash_chain P (D - tdOf leaves.length)
        ((newTree P leaves).getD 0 P.hashEmpty) := by
    rw [pad_chain, pad_go_fst, headD_eq_getD_zero]
  have hgp : generate_proof D P
      { root := some (pad_chain D P (tdOf leaves.length)
          ((newTree P leaves).headD P.hashEmpty)).1,
        tree := newTree P leaves,
        hashed_leaves_index := next_power_of_two leaves.length - 1,
        padding_tree := (pad_chain D P (tdOf leaves.length)
          ((newTree P leaves).headD P.hashEmpty)).2 } i lf =
      .ok { path := pth ++ List.replicate (D - tdOf leaves.length) P.hashEmpty,
            leaf_index := i } := by
    simp only [generate_proof, convert_index_to_last_level]
    rw [htd2, hstored]
    dsimp only
    rw [if_neg (show ¬ P.hashLeaf lf ≠ P.hashLeaf lf by simp)]
    rw [hup]
    dsimp only
    rw [if_neg (show ¬ pth.length > D by omega)]
    by_cases hcase : tdOf leaves.length = D
    · rw [if_neg (show ¬ pth.length ≠ D by omega)]
      rw [if_neg (show ¬ pth.length ≠ D by omega)]
      rw [show D - tdOf leaves.length = 0 by omega]
      simp
    · rw [if_pos (show pth.length ≠ D by omega)]
      have hsibs : (pad_chain D P (tdOf leaves.length)
          ((newTree P leaves).headD P.hashEmpty)).2.map (fun pr => pr.2) =
          List.replicate (D - tdOf leaves.length - 1) P.hashEmpty := by
        rw [pad_chain, pad_go_siblings]
      rw [hsibs]
      rw [if_neg (show ¬ (pth ++ [P.hashEmpty] ++
          List.replicate (D - tdOf leaves.length - 1) P.hashEmpty).length ≠ D
        by simp [hplen]; omega)]
      rw [show D - tdOf leaves.length = (D - tdOf leaves.length - 1) + 1
        by omega]
      rw [List.replicate_succ, List.append_assoc]
      rfl
  constructor
  · rw [hgp]
    simp only [pathOf, Option.map_some]
    simp [hplen]
    omega
  · rw [hgp]
    show some (path_fold P (P.hashLeaf lf) i
      (pth ++ List.replicate (D - tdOf leaves.length) P.hashEmpty)) =
      some (pad_chain D P (tdOf leaves.length)
        ((newTree P leaves).headD P.hashEmpty)).1
    rw [path_fold_append, hplen, hfold, Nat.div_eq_of_lt hiL,
      path_fold_replicate_empty]
    rw [hroot]

/-- C2 witness: index 2 of the three-leaf tree under `DEPTH = 3`. -/
theorem C2_witness :
    (pathOf (generate_proof 3 (freeParams Nat) tABC 2 2)).map List.length =
      some 3 ∧
    (pathOf (generate_proof 3 (freeParams Nat) tABC 2 2)).map
      (path_fold (freeParams Nat) ((freeParams Nat).hashLeaf 2) 2) =
      tABC.root :=
  C2_proof_roundtrip 3 (freeParams Nat) [0, 1, 2] tABC 2 2 rfl rfl

/-! ### C5: padding reuse in `rebuild` -/

/-- A one-leaf tree under `DEPTH = 3`: two padding pairs. -/
def t0d3 : MerkleTree (Digest Nat) := okD (new 3 (freeParams Nat) [0]) dfltTree

/-- C5 counterexample: a two-leaf tree under `DEPTH = 2` has an empty
`padding_tree`; re-running `rebuild` with an unchanged top hash stops
abnormally instead of returning the tree the claim describes. -/
theorem C5_counterexample :
    isPanicked (rebuild 2 (freeParams Nat)
      (okD (new 2 (freeParams Nat) [0, 1]) dfltTree) 2 ([] : List Nat)) = true := by
  decide

/-- C5 amended: when the new top hash equals the old one and the old
`padding_tree` is nonempty, `rebuild` returns the old `padding_tree` verbatim
and the root is the old last padding accumulator hashed once more against the
empty digest; when the top hash is unchanged but the old `padding_tree` is
empty, the call stops abnormally; otherwise the padding chain is recomputed
exactly as in construction. -/
theorem C5_padding_reuse [DecidableEq β] (D : Nat) (P : Params α β)
    (self : MerkleTree β) (start_index : Nat) (new_leaves : List α) (pr : β × β)
    (hD : tree_depth (2 * next_power_of_two
      (start_index + new_leaves.length) - 1) ≤ D)
    (h1 : start_index ≤ (hashed_leaves self).length)
    (h3 : self.tree ≠ []) :
    ((rebuildTree P self start_index new_leaves).headD P.hashEmpty =
        self.tree.headD P.hashEmpty →
      (self.padding_tree.getLast? = some pr →
        rebuild D P self start_index new_leaves = .ok
          { root := some (P.hashInner pr.1 P.hashEmpty),
            tree := rebuildTree P self start_index new_leaves,
            hashed_leaves_index :=
              next_power_of_two (start_index + new_leaves.length) - 1,
            padding_tree := self.padding_tree }) ∧
      (self.padding_tree = [] →
        rebuild D P self start_index new_leaves = .error .panicked)) ∧
    ((rebuildTree P self start_index new_leaves).headD P.hashEmpty ≠
        self.tree.headD P.hashEmpty →
      rebuild D P self start_index new_leaves = .ok
        { root := some (pad_chain D P (tree_depth
            (2 * next_power_of_two (start_index + new_leaves.length) - 1))
            ((rebuildTree P self start_index new_leaves).headD P.hashEmpty)).1,
          tree := rebuildTree P self start_index new_leaves,
          hashed_leaves_index :=
            next_power_of_two (start_index + new_leaves.length) - 1,
          padding_tree := (pad_chain D P (tree_depth
            (2 * next_power_of_two (start_index + new_leaves.length) - 1))
            ((rebuildTree P self start_index new_leaves).headD
              P.hashEmpty)).2 }) := by
  have hguard : ¬ (start_index > (hashed_leaves self).length ∨
      start_index > next_power_of_two (start_index + new_leaves.length)) := by
    push_neg
    exact ⟨h1, le_trans (Nat.le_add_right _ _) (le_next_power_of_two _)⟩
  have hempty : ¬ (self.tree.isEmpty = true) := by
    simpa [List.isEmpty_iff] using h3
  constructor
  · intro heq
    constructor
    · intro hpr
      simp only [rebuild]
      rw [if_neg (by omega), if_neg hguard, if_neg hempty, if_pos heq, hpr]
    · intro hpad
      simp only [rebuild]
      rw [if_neg (by omega), if_neg hguard, if_neg hempty, if_pos heq, hpad]
      rfl
  · intro hne
    simp only [rebuild]
    rw [if_neg (by omega), if_neg hguard, if_neg hempty, if_neg hne]

/-- C5 witness: appending nothing to a one-leaf tree under `DEPTH = 3` leaves
the top hash unchanged; the nonempty padding is reused verbatim and the root
is the last accumulator hashed against the empty digest. -/
theorem C5_witness :
    rebuild 3 (freeParams Nat) t0d3 1 ([] : List Nat) = .ok
      { root := some ((freeParams Nat).hashInner
          (Digest.innerH (Digest.innerH (Digest.leafH 0) Digest.empty)
            Digest.empty)
          (freeParams Nat).hashEmpty),
        tree := rebuildTree (freeParams Nat) t0d3 1 ([] : List Nat),
        hashed_leaves_index :=
          next_power_of_two (1 + ([] : List Nat).length) - 1,
        padding_tree := t0d3.padding_tree } :=
  ((C5_padding_reuse 3 (freeParams Nat) t0d3 1 []
      (Digest.innerH (Digest.innerH (Digest.leafH 0) Digest.empty) Digest.empty,
        Digest.empty)
      (by decide) (by decide) (by decide)).1 (by decide)).1 (by decide)

/-! ### C4: the leaf row assembled by `rebuild` -/

/-- C4 evaluated at the failing input: with 501 new leaves (two hash batches)
written from `start_index` 0 into a 512-slot leaf row, the second batch lands
at offset 1 — position 1 holds the digest of leaf 500 instead of the digest
of leaf 1, and position 500 holds the empty digest instead of leaf 500's. -/
theorem C4_batch_offset_bug :
    (rebuild_leaf_row (freeParams Nat) [] 0 (List.range 501) 512)[1]? =
      some (Digest.leafH 500) ∧
    (List.range 501)[1]? = some 1 ∧
    (Digest.leafH 500 : Digest Nat) ≠ Digest.leafH 1 ∧
    (rebuild_leaf_row (freeParams Nat) [] 0 (List.range 501) 512)[500]? =
      some Digest.empty := by
  refine ⟨by decide, by decide, by decide, by decide⟩

/-- C6 witness: appending a leaf to the three-leaf tree and proving inside it
return without abnormal stops. -/
theorem C6_witness :
    isPanicked (new 3 (freeParams Nat) [0, 1, 2]) = false ∧
    isPanicked (rebuild 3 (freeParams Nat) tABC 3 [3]) = false ∧
    isPanicked (generate_proof 3 (freeParams Nat) tABC 1 (1 : Nat)) = false := by
  have h := C6_no_abnormal_stop 3 (freeParams Nat) [0, 1, 2] [3] tABC tABC 3 1 1
  exact ⟨h.1, h.2.1 (by decide) (by decide) (Or.inr (by decide)),
    h.2.2 (by decide) (by decide)⟩

end MerkleModel
